import Mathlib

/-!
Verification of the ajimi generated-region rewriter (`src/fix.rs`), the
diff-to-markdown formatter (`format_patch`) and the order-consistency
checker (`src/check.rs`).

Lines and strings are modelled as lists of characters (`L`).  The Rust
string operations used by the source (`split`, `split_inclusive`,
`split_once`, `contains`, `starts_with`, `ends_with`, `strip_prefix`,
`replace`, `trim`, `trim_end`, `trim_end_matches`, `chunk_by`) are
reimplemented structurally below so that every definition is executable
by the kernel.  Fallible Rust code is modelled with `RRes`, which keeps
`Err` results (`anyhow` errors) distinct from panics
(`unwrap` / `todo!` / out-of-bounds slicing).
-/

set_option maxHeartbeats 1000000
set_option maxRecDepth 10000

/-! ## Definitions

The embedded source (string primitives, the `format_patch`
formatter, the three rewrite passes, the consistency checker), the
claim-side scanners (`outsideGo`, `stripSpecF`), the side-condition
predicate `lineOK`, and the concrete resolvers and documents used
by witnesses and counterexamples. -/

abbrev L : Type := List Char

/-- Character data of a string literal. -/
def str (s : String) : L := s.data

/-- Rust `str::starts_with` on character lists. -/
def isPre : L → L → Bool
  | [], _ => true
  | _ :: _, [] => false
  | a :: ps, b :: qs => a == b && isPre ps qs

/-- Rust `str::ends_with` on character lists. -/
def isSuf (p s : L) : Bool := isPre p.reverse s.reverse

/-- Rust `str::contains` (substring search). -/
def containsSub (p : L) : L → Bool
  | [] => p.isEmpty
  | a :: t => isPre p (a :: t) || containsSub p t

/-- Rust `str::split(c)`: splits at every occurrence of `c`, keeping empty
pieces; the result is always non-empty. -/
def splitOnChar (c : Char) : L → List L
  | [] => [[]]
  | a :: t =>
    if a = c then [] :: splitOnChar c t
    else
      match splitOnChar c t with
      | [] => [[a]]
      | p :: ps => (a :: p) :: ps

/-- Rust `str::split_inclusive(c)`: pieces keep their trailing separator;
the empty string yields no pieces. -/
def splitInclusive (c : Char) : L → List L
  | [] => []
  | a :: t =>
    let r := splitInclusive c t
    if a = c then [a] :: r
    else
      match r with
      | [] => [[a]]
      | p :: ps => (a :: p) :: ps

/-- Rust `str::split_once(pat)`. -/
def splitOnce (pat : L) : L → Option (L × L)
  | [] => if pat.isEmpty then some ([], []) else none
  | a :: t =>
    if isPre pat (a :: t) then some ([], List.drop pat.length (a :: t))
    else (splitOnce pat t).map (fun r => (a :: r.1, r.2))

/-- Rust `str::strip_prefix(pat)`. -/
def stripPre (pat s : L) : Option L :=
  if isPre pat s then some (List.drop pat.length s) else none

def isWS (c : Char) : Bool := c == ' ' || c == '\t' || c == '\n' || c == '\r'

/-- Rust `str::trim_end`. -/
def trimEnd (s : L) : L := (s.reverse.dropWhile isWS).reverse

/-- Rust `str::trim`. -/
def trim (s : L) : L := trimEnd (s.dropWhile isWS)

/-- Rust `str::trim_end_matches('\n')`. -/
def trimEndNl (s : L) : L := (s.reverse.dropWhile (· == '\n')).reverse

/-- Fuelled worker for Rust `str::replace` (replace all non-overlapping
occurrences, left to right).  Fuel bounded by the length of the text is
always sufficient for a non-empty pattern. -/
def replaceFuel (pat rep : L) : Nat → L → L
  | _, [] => []
  | 0, s => s
  | fuel + 1, a :: t =>
    if isPre pat (a :: t) && !pat.isEmpty then
      rep ++ replaceFuel pat rep fuel (List.drop pat.length (a :: t))
    else a :: replaceFuel pat rep fuel t

/-- Rust `str::replace`. -/
def replaceAll (pat rep s : L) : L := replaceFuel pat rep s.length s

/-- Worker for Rust `slice::chunk_by`: `a` is the element opening the
current chunk run. -/
def chunkByGo (f : L → L → Bool) : L → List L → List L × List (List L)
  | a, [] => ([a], [])
  | a, b :: rest =>
    let r := chunkByGo f b rest
    if f a b then (a :: r.1, r.2) else ([a], r.1 :: r.2)

/-- Rust `slice::chunk_by`: a new chunk starts between `a` and `b`
whenever `f a b` is false. -/
def chunkBy (f : L → L → Bool) : List L → List (List L)
  | [] => []
  | a :: rest =>
    let r := chunkByGo f a rest
    r.1 :: r.2

/-- Rust `str::parse::<usize>()` (optional leading `+`, at least one
digit). -/
def parseUsize (s : L) : Option Nat :=
  let s' := match s with
    | '+' :: t => t
    | _ => s
  if s'.isEmpty then none
  else if s'.all (·.isDigit) then
    some (s'.foldl (fun n c => n * 10 + (c.toNat - 48)) 0)
  else none

/-- Rust `iter().skip_while(|s| *s != key).nth(1)`: the element right after the
first occurrence of `key`. -/
def tokenAfter (key : L) (toks : List L) : Option L :=
  (toks.dropWhile (fun t => t != key))[1]?

/-- Outcome of a Rust computation: `ok`, a recoverable `anyhow` error, or
a panic (`unwrap` on `None`, `todo!`, out-of-bounds slicing). -/
inductive RRes (α : Type) where
  | ok : α → RRes α
  | err : RRes α
  | panicked : RRes α
deriving DecidableEq

def RRes.bind {α β : Type} : RRes α → (α → RRes β) → RRes β
  | .ok a, f => f a
  | .err, _ => .err
  | .panicked, _ => .panicked

structure CommitResolver where
  change_id_from_commit_id : L → Option L
  patch_from_change_id : L → Option L
  line_from_commit : L → L → Nat → Option L

/-- Language-fence inference (src/fix.rs lines 125-135); `none` is the
fatal "file type unknown" error. -/
def langOf (filename : L) : Option L :=
  if isSuf (str (".rs")) filename then some (str ("rust,noplayground"))
  else if isSuf (str (".gitignore")) filename || isSuf (str (".lock")) filename then
    some (str ("gitconfig"))
  else if isSuf (str (".toml")) filename then some (str ("toml"))
  else if isSuf (str (".sh")) filename then some (str ("bash_script_file"))
  else none

/-- Push into the last vector of the accumulator
(`acc.last_mut().unwrap().push(..)`); the caller has checked the
accumulator is non-empty. -/
def pushLast (x : L) : List (List L) → List (List L)
  | [] => []
  | [h] => [h ++ [x]]
  | h :: t => h :: pushLast x t

/-- The hunk-grouping fold (src/fix.rs lines 138-152): metadata lines are
dropped, a line starting with `@@` opens a new hunk, and every surviving
line is pushed into the last hunk — a panic if no hunk is open yet. -/
def hunksFold : List L → List (List L) → RRes (List (List L))
  | [], acc => .ok acc
  | line :: rest, acc =>
    if isPre (str ("diff --git")) line || isPre (str ("new file")) line ||
       isPre (str ("---")) line || isPre (str ("+++")) line ||
       isPre (str ("index ")) line then
      hunksFold rest acc
    else
      let acc' := if isPre (str ("@@")) line then acc ++ [[]] else acc
      match acc' with
      | [] => .panicked
      | _ :: _ => hunksFold rest (pushLast line acc')

/-- Mutable state of the rendering loop: accumulated output,
`num_diff_lines`, and `context_marker_appeared` (HashSet modelled as a
membership list). -/
structure FmtSt where
  out : L
  numDiff : Nat
  appeared : List L
deriving DecidableEq

/-- One iteration of the inner rendering loop of `format_patch`
(src/fix.rs lines 156-231).  `hunkLines` is the full current hunk (used
by the `lines.iter().find(..)` heuristic). -/
def renderHunkLine (R : CommitResolver) (commitId : Option L) (filename : L)
    (hunkLines : List L) (st : FmtSt) (line : L) : RRes FmtSt :=
  if isPre (str ("@@ ")) line then
    let st :=
      if st.numDiff > 0 && !isPre (str ("@@ -1,")) line then
        { st with out := st.out ++ str ("\n// << 中略 >>\n\n") }
      else st
    let ctxPair := ((splitOnce (str ("@@")) line).getD ([], [])).2
    let context := (splitOnce (str ("@@")) ctxPair).getD ([], [])
    let lineinfo :=
      ((splitOnce [','] (((splitOnce [' '] (trim context.1)).getD ([], [])).2)).getD
        ([], [])).1
    let afterlinestart := (parseUsize lineinfo).getD 0
    let ctx := trimEnd ((stripPre [' '] context.2).getD [])
    if isSuf (str ("\x7b")) ctx then
      let lineBefore :=
        match commitId with
        | some cid => (R.line_from_commit cid filename (afterlinestart - 1)).getD []
        | none => []
      match hunkLines.find? (fun l => !isPre (str ("@@ ")) l && l.length > 0) with
      | none => .panicked
      | some fl =>
        if isPre (str ("    ")) fl then
          if st.appeared.contains ctx then .ok st
          else
            let st := { st with out := st.out ++ ctx ++ str ("\n"),
                                appeared := st.appeared ++ [ctx] }
            let lbh := trimEnd lineBefore
            if ctx ≠ lbh then
              .ok { st with out := st.out ++ str ("    // << 中略 >>\n") }
            else .ok st
        else .ok st
    else .ok st
  else
    match line with
    | [] => .panicked
    | d :: rest =>
      if 128 ≤ d.toNat then .panicked
      else
      let core := trimEndNl rest
      if core.isEmpty then .ok { st with out := st.out ++ str ("\n") }
      else
        let st :=
          if isPre (str ("fn ")) core then { st with appeared := st.appeared ++ [core] }
          else st
        if d = '+' then
          .ok { st with out := st.out ++ str ("**") ++ core ++ str ("**") ++ str ("\n"),
                        numDiff := st.numDiff + 1 }
        else if d = '-' then
          .ok { st with out := st.out ++ str ("~~") ++ core ++ str ("~~") ++ str ("\n"),
                        numDiff := st.numDiff + 1 }
        else if d = ' ' then
          .ok { st with out := st.out ++ core ++ str ("\n"),
                        numDiff := st.numDiff + 1 }
        else .panicked

/-- Render the lines of one hunk. -/
def renderLines (R : CommitResolver) (commitId : Option L) (filename : L)
    (hunkLines : List L) : List L → FmtSt → RRes FmtSt
  | [], st => .ok st
  | l :: ls, st =>
    (renderHunkLine R commitId filename hunkLines st l).bind
      (renderLines R commitId filename hunkLines ls)

/-- Render all hunks of one file segment. -/
def renderHunks (R : CommitResolver) (commitId : Option L) (filename : L) :
    List (List L) → FmtSt → RRes FmtSt
  | [], st => .ok st
  | h :: hs, st =>
    (renderLines R commitId filename h h st).bind
      (renderHunks R commitId filename hs)

/-- Process one `diff --git` file segment of `format_patch`
(src/fix.rs lines 111-234), appending to the accumulated output. -/
def formatPatchPart (R : CommitResolver) (commitId : Option L) (part : L)
    (output : L) : RRes L :=
  if (trim part).isEmpty then .ok output
  else if !isPre (str ("diff --git")) part then .err
  else
    let lines := splitInclusive '\n' part
    match lines with
    | [] => .panicked
    | l0 :: _ =>
      match (splitOnChar ' ' l0)[2]? with
      | none => .panicked
      | some tok =>
        match stripPre (str ("a/")) tok with
        | none => .panicked
        | some filename =>
          match langOf filename with
          | none => .err
          | some lang =>
            let output' :=
              output ++ str ("\n```") ++ lang ++ str ("\n") ++ str ("(注:") ++
                filename ++ str (")\n")
            (hunksFold lines []).bind fun hunks =>
              (renderHunks R commitId filename hunks ⟨output', 0, []⟩).bind fun st =>
                .ok (st.out ++ str ("```\n"))

/-- Loop of `format_patch` over its file segments. -/
def formatPatchGo (R : CommitResolver) (commitId : Option L) :
    List L → L → RRes L
  | [], output => .ok output
  | p :: ps, output =>
    (formatPatchPart R commitId p output).bind (formatPatchGo R commitId ps)

/-- The function `format_patch` (src/fix.rs lines 100-236). -/
def formatPatch (input : L) (R : CommitResolver) (commitId : Option L) : RRes L :=
  let parts :=
    (chunkBy (fun _ b => !isPre (str ("diff --git")) b) (splitOnChar '\n' input)).map
      (List.intercalate (str ("\n")))
  formatPatchGo R commitId parts []

/-- One line of `replace_commit_id_with_change_id` (src/fix.rs lines
51-65).  The Boolean records whether the "Invalid commit" diagnostic was
printed for this line. -/
def normalizeLineD (R : CommitResolver) (line : L) : L × Bool :=
  if containsSub (str ("ajimi::code")) line && isPre (str ("<!--")) line then
    match tokenAfter (str ("commit")) (splitOnChar ' ' line) with
    | some commit =>
      match R.change_id_from_commit_id commit with
      | some cid => (str ("<!-- ajimi::code change_id ") ++ cid ++ str (" -->"), false)
      | none => (line, true)
    | none => (line, false)
  else (line, false)

def normalizeLine (R : CommitResolver) (line : L) : L := (normalizeLineD R line).1

/-- The pass `replace_commit_id_with_change_id` (src/fix.rs lines 46-68): one
output line per input line; the Rust function returns `Ok`
unconditionally, so it is modelled as a pure map. -/
def replaceCommitIdWithChangeId (R : CommitResolver) (lines : List L) : List L :=
  lines.map (normalizeLine R)

/-- The region-start test of `remove_generated_lines`
(src/fix.rs line 75). -/
def stripTrig (line : L) : Bool :=
  isPre (str ("<!--")) line && containsSub (str ("ajimi::code change_id")) line

/-- The mechanically derived end marker (src/fix.rs line 82). -/
def deriveEnd (line : L) : L :=
  replaceAll (str ("ajimi::code")) (str ("ajimi::end")) line

/-- State machine of `remove_generated_lines` (src/fix.rs lines 70-98):
`pending` is `lines_pending`, `em` is `end_marker_for_pending`; the final
`[]` case is the tail flush for a non-terminated block. -/
def removeGo : List L → List L → Option L → List L
  | [], pending, _ => pending
  | line :: rest, pending, em =>
    if stripTrig line then
      (if em.isSome then pending else []) ++
        line :: removeGo rest [] (some (deriveEnd line))
    else if em = some line then removeGo rest [] none
    else if em.isSome then removeGo rest (pending ++ [line]) em
    else line :: removeGo rest pending em

/-- The pass `remove_generated_lines` (src/fix.rs lines 70-98); the Rust function
returns `Ok` unconditionally. -/
def removeGeneratedLines (lines : List L) : List L := removeGo lines [] none

def endMarkerFor (cid : L) : L :=
  str ("<!-- ajimi::end change_id ") ++ cid ++ str (" -->")

def metaTitleLine (t : L) : L :=
  str ("<!-- ajimi::meta::title \"") ++ t ++ str ("\" -->")

/-- The marker test shared by the normalize and re-insert passes:
`line.contains("ajimi::code") && line.starts_with("<!--")`. -/
def markB (line : L) : Bool :=
  containsSub (str ("ajimi::code")) line && isPre (str ("<!--")) line

/-- The `change_id` token extraction of the re-insert pass
(src/fix.rs lines 245-250). -/
def insTrigTok (line : L) : Option L :=
  tokenAfter (str ("change_id")) (splitOnChar ' ' line)

/-- What `insert_commit_diff_with_change_id` pushes for one input line
(src/fix.rs lines 243-277): a failing `patch_from_change_id` lookup
contributes nothing (the `continue` skips even the marker line); a
missing `": "` separator in the patch head panics
(`.context(..).unwrap()`). -/
def insertEffect (R : CommitResolver) (line : L) : RRes (List L) :=
  if markB line then
    match insTrigTok line with
    | some cid =>
      match R.patch_from_change_id cid with
      | some patch =>
        let pl := splitOnChar '\n' (trim patch)
        match pl with
        | [] => .panicked
        | f :: rest =>
          match splitOnce (str (": ")) f with
          | none => .panicked
          | some ht =>
            (formatPatch (List.intercalate (str ("\n")) rest) R (some ht.1)).bind
              fun fmt =>
                .ok [line, metaTitleLine ht.2, fmt, endMarkerFor cid]
      | none => .ok []
    | none => .ok [line]
  else .ok [line]

/-- The pass `insert_commit_diff_with_change_id` (src/fix.rs lines 238-279). -/
def insertCommitDiffWithChangeId (R : CommitResolver) : List L → RRes (List L)
  | [] => .ok []
  | line :: rest =>
    (insertEffect R line).bind fun b =>
      (insertCommitDiffWithChangeId R rest).bind fun out => .ok (b ++ out)

/-- The three passes of `fix_file` on the line list
(src/fix.rs lines 36-38). -/
def fixLines (R : CommitResolver) (lines : List L) : RRes (List L) :=
  insertCommitDiffWithChangeId R
    (removeGeneratedLines (replaceCommitIdWithChangeId R lines))

/-- The function `fix_file` (src/fix.rs lines 33-44) as a transformation of the file
content: split on newlines, run the three passes, join with newlines
(the file IO wrapper is dropped). -/
def fixFile (R : CommitResolver) (s : L) : RRes L :=
  (fixLines R (splitOnChar '\n' s)).bind fun lines =>
    .ok (List.intercalate (str ("\n")) lines)

/-- The map `repo_order_map` (src/check.rs lines 144-147): iterate the
newest-first history reversed (so oldest first), inserting each
identifier with its chronological index; a later insert overwrites an
earlier one, exactly as `HashMap::insert` does. -/
def repoOrderMap (histNewestFirst : List L) : L → Option Nat :=
  (histNewestFirst.reverse.enum).foldl
    (fun m p => fun c => if c = p.2 then some p.1 else m c) (fun _ => none)

inductive Viol where
  | orderBack : Viol
  | notFound : Viol
deriving DecidableEq

/-- The checking loop over the book's identifiers (src/check.rs lines
148-167).  `idx` numbers the scanned identifiers (it anchors each
reported violation to its element); `next` is `next_expected_order`.
Each printed issue becomes one entry of the returned list.  The
`found_ids` set feeds only the unreferenced-history report (lines
168-177), which these claims do not touch, and is omitted. -/
def verifyLoop (pos : L → Option Nat) : List L → Nat → Nat → List (Nat × Viol)
  | [], _, _ => []
  | id :: rest, idx, next =>
    match pos id with
    | some order =>
      if order < next then (idx, Viol.orderBack) :: verifyLoop pos rest (idx + 1) next
      else verifyLoop pos rest (idx + 1) (order + 1)
    | none => (idx, Viol.notFound) :: verifyLoop pos rest (idx + 1) next

/-- The ordering/membership part of `verify_generated_code`: the list of
violations reported for the scanned identifiers against a history given
newest-first. -/
def verifyGeneratedCode (histNewestFirst : List L) (idsInBook : List L) :
    List (Nat × Viol) :=
  verifyLoop (repoOrderMap histNewestFirst) idsInBook 0 0

/-- State-passing prefix run of `removeGo`: output produced so far,
pending buffer and expected end marker after consuming the prefix. -/
def removeRun : List L → List L → Option L → List L × List L × Option L
  | [], pending, em => ([], pending, em)
  | line :: rest, pending, em =>
    if stripTrig line then
      let r := removeRun rest [] (some (deriveEnd line))
      ((if em.isSome then pending else []) ++ line :: r.1, r.2)
    else if em = some line then removeRun rest [] none
    else if em.isSome then removeRun rest (pending ++ [line]) em
    else
      let r := removeRun rest pending em
      (line :: r.1, r.2)

def outsideGo : List L → List L → Option L → List L
  | [], pending, _ => pending
  | line :: rest, pending, em =>
    if stripTrig line then
      (if em.isSome then pending else []) ++ outsideGo rest [] (some (deriveEnd line))
    else if em = some line then outsideGo rest [] none
    else if em.isSome then
      outsideGo rest (pending ++ if markB line then [] else [line]) em
    else (if markB line then [] else [line]) ++ outsideGo rest pending em

def outsideLines (ls : List L) : List L := outsideGo ls [] none

/-- A resolver that answers nothing. -/
def resolverNone : CommitResolver :=
  ⟨fun _ => none, fun _ => none, fun _ _ _ => none⟩

/-- Resolver for the end-to-end scenario, patch as the spec writes it
(no `diff --git` header). -/
def resolverC5bad : CommitResolver :=
  ⟨fun _ => none,
   fun c =>
     if c = str ("X") then
       some (str ("abc123: Title\n\n@@ -1,1 +1,1 @@\n-old\n+new\n"))
     else none,
   fun _ _ _ => none⟩

/-- Resolver for the end-to-end scenario with a well-formed patch
(header line included). -/
def resolverC5 : CommitResolver :=
  ⟨fun _ => none,
   fun c =>
     if c = str ("X") then
       some (str ("abc123: Title\n\ndiff --git a/f.rs b/f.rs\n@@ -1,1 +1,1 @@\n-old\n+new\n"))
     else none,
   fun _ _ _ => none⟩

/-- The end-to-end scenario document. -/
def c5doc : L :=
  str ("<!-- ajimi::code change_id X -->\nold body\n<!-- ajimi::end change_id X -->")

/-- Output of the rewrite on the end-to-end scenario (with the
well-formed patch). -/
def c5out : L :=
  match fixFile resolverC5 c5doc with
  | .ok o => o
  | _ => []

/-- Resolver for the C6 counterexample: `A` and `C` resolve to a
well-formed patch, `B` does not resolve. -/
def resolverC6 : CommitResolver :=
  ⟨fun _ => none,
   fun c =>
     if c = str ("B") then none
     else if c = str ("A") || c = str ("C") then
       some (str ("h: T\n\ndiff --git a/f.rs b/f.rs\n@@ -1,1 +1,1 @@\n-old\n+new\n"))
     else none,
   fun _ _ _ => none⟩

/-- C6 counterexample document: the middle line sits between two start
markers with no intervening end marker; it is itself marker-like for the
re-insert pass (but not for the strip pass) and its identifier `B` does
not resolve. -/
def c6doc : List L :=
  [str ("<!-- ajimi::code change_id A -->"),
   str ("<!-- ajimi::code x change_id B -->"),
   str ("<!-- ajimi::code change_id C -->")]

def c6out : List L :=
  match fixLines resolverC6 c6doc with
  | .ok o => o
  | _ => []

def c6w3doc : List L :=
  [str ("p"), str ("<!-- ajimi::code change_id A -->"),
   str ("body1"), str ("body2"),
   str ("<!-- ajimi::code change_id C -->"), str ("q")]

def c6w3out : List L :=
  match fixLines resolverC6 c6w3doc with
  | .ok o => o
  | _ => []

/-- Claim-side description of the strip pass, written from the claim:
after keeping a start-marker line, scan forward for the first special
line (another start marker, or the mechanically derived end marker); if
it is the derived end marker, the skipped body and the end marker itself
are removed; if it is another start marker, the skipped body is kept
(orphan recovery) and scanning restarts there; if the document ends
first, the body is kept.  All other lines are kept unchanged.  The fuel
argument only bounds the recursion; any fuel of at least the list length
gives the same result (`stripSpec` below passes the length). -/
def stripSpecF : Nat → List L → List L
  | _, [] => []
  | 0, ls => ls
  | fuel + 1, l :: rest =>
    if stripTrig l = true then
      match rest.dropWhile (fun x => !(stripTrig x || x == deriveEnd l)) with
      | [] => l :: rest
      | stop :: rest' =>
        if stripTrig stop = true then
          l :: (rest.takeWhile (fun x => !(stripTrig x || x == deriveEnd l)) ++
            stripSpecF fuel (stop :: rest'))
        else l :: stripSpecF fuel rest'
    else l :: stripSpecF fuel rest

def stripSpec (ls : List L) : List L := stripSpecF ls.length ls


def c7A : L := str ("diff --git a/f.rs b/f.rs")
def c7B : L := str ("@@ -1,1 +1,1 @@")

/-- A minimal well-formed segment whose single hunk content line starts
with the tag character `c`. -/
def c7seg (c : Char) : L := c7A ++ '\n' :: (c7B ++ '\n' :: (c :: str ("x")))

/-- No newline character in a line. -/
def noNLb (a : L) : Bool := !a.contains '\n'

/-- The re-insert pass's full trigger: marker-like and carrying a
`change_id` token with a successor. -/
def insTrigB (line : L) : Bool := markB line && (insTrigTok line).isSome

/-- A line survives the re-insert pass's `continue`-drop unless it is a
marker whose identifier fails to resolve. -/
def keepB (R : CommitResolver) (a : L) : Bool :=
  !(markB a &&
    (match insTrigTok a with
     | some cid => (R.patch_from_change_id cid).isNone
     | none => false))

/-- Re-split a pushed line list on newlines (what writing the joined file
and reading it back does to the line structure). -/
def expandNL : List L → List L
  | [] => []
  | b :: bs => splitOnChar '\n' b ++ expandNL bs

/-- Side conditions on one line of the stripped document under which the
second run of the rewrite reproduces the first run's output: the line has
no embedded newline and is fixed by the normalize pass; the strip pass
and the re-insert pass agree on whether it is a start marker; and for a
start marker, its mechanically derived end marker is the canonical end
marker the re-insert pass generates (itself inert for every pass), and
no generated content line (title metadata or rendered patch line) is
marker-like or equal to the derived end marker. -/
def lineOK (R : CommitResolver) (a : L) : Bool :=
  noNLb a &&
  decide (normalizeLine R a = a) &&
  (stripTrig a == insTrigB a) &&
  (if markB a then
    match insTrigTok a with
    | none => true
    | some cid =>
      decide (deriveEnd a = endMarkerFor cid) &&
      noNLb (endMarkerFor cid) &&
      !markB (endMarkerFor cid) &&
      !stripTrig (endMarkerFor cid) &&
      (match R.patch_from_change_id cid with
       | none => true
       | some p =>
         match splitOnChar '\n' (trim p) with
         | [] => true
         | f :: rest =>
           match splitOnce (str (": ")) f with
           | none => true
           | some ht =>
             noNLb (metaTitleLine ht.2) &&
             !markB (metaTitleLine ht.2) &&
             !stripTrig (metaTitleLine ht.2) &&
             decide (metaTitleLine ht.2 ≠ deriveEnd a) &&
             (match formatPatch (List.intercalate (str ("\n")) rest) R
                 (some ht.1) with
              | .ok fmt =>
                (splitOnChar '\n' fmt).all (fun x =>
                  !markB x && !stripTrig x && decide (x ≠ deriveEnd a))
              | _ => true))
  else true)

/-- The C1 counterexample document: a line the re-insert pass treats as a
start marker (it has a `change_id` token) but the strip pass does not
(the literal `ajimi::code change_id` is broken up by an extra token). -/
def c1doc : L := str ("<!-- ajimi::code x change_id X -->")

def c1out : L :=
  match fixFile resolverC5 c1doc with
  | .ok o => o
  | _ => []

/-! ## Theorems -/

@[simp] theorem RRes.bind_ok {α β : Type} (a : α) (f : α → RRes β) :
    RRes.bind (.ok a) f = f a := rfl

@[simp] theorem RRes.bind_err {α β : Type} (f : α → RRes β) :
    RRes.bind (.err : RRes α) f = .err := rfl

@[simp] theorem RRes.bind_panicked {α β : Type} (f : α → RRes β) :
    RRes.bind (.panicked : RRes α) f = .panicked := rfl

theorem splitOnChar_ne_nil (c : Char) (s : L) : splitOnChar c s ≠ [] := by
  induction s with
  | nil => simp [splitOnChar]
  | cons a t ih =>
    simp only [splitOnChar]
    split
    · simp
    · cases h : splitOnChar c t with
      | nil => simp
      | cons p ps => simp

theorem not_mem_of_mem_splitOnChar (c : Char) (s : L) :
    ∀ p ∈ splitOnChar c s, c ∉ p := by
  induction s with
  | nil => intro p hp; simp [splitOnChar] at hp; simp [hp]
  | cons a t ih =>
    intro p hp
    simp only [splitOnChar] at hp
    by_cases hac : a = c
    · simp [hac] at hp
      rcases hp with h | h
      · simp [h]
      · exact ih p h
    · simp [hac] at hp
      cases h : splitOnChar c t with
      | nil => exact absurd h (splitOnChar_ne_nil c t)
      | cons q qs =>
        rw [h] at hp
        simp at hp
        rcases hp with h1 | h1
        · subst h1
          intro hc
          rcases List.mem_cons.mp hc with h2 | h2
          · exact hac h2.symm
          · exact ih q (by simp [h]) h2
        · exact ih p (by simp [h, h1])

theorem mem_of_mem_splitOnChar (c : Char) (s : L) :
    ∀ p ∈ splitOnChar c s, ∀ x ∈ p, x ∈ s := by
  induction s with
  | nil => intro p hp; simp [splitOnChar] at hp; simp [hp]
  | cons a t ih =>
    intro p hp x hx
    simp only [splitOnChar] at hp
    by_cases hac : a = c
    · simp [hac] at hp
      rcases hp with h | h
      · simp [h] at hx
      · exact List.mem_cons_of_mem _ (ih p h x hx)
    · simp [hac] at hp
      cases h : splitOnChar c t with
      | nil => exact absurd h (splitOnChar_ne_nil c t)
      | cons q qs =>
        rw [h] at hp
        simp at hp
        rcases hp with h1 | h1
        · subst h1
          rcases List.mem_cons.mp hx with h2 | h2
          · simp [h2]
          · exact List.mem_cons_of_mem _ (ih q (by simp [h]) x h2)
        · exact List.mem_cons_of_mem _ (ih p (by simp [h, h1]) x hx)

theorem splitOnChar_append_cons (c : Char) (x y : L) :
    splitOnChar c (x ++ c :: y) = splitOnChar c x ++ splitOnChar c y := by
  induction x with
  | nil => simp [splitOnChar]
  | cons a t ih =>
    by_cases hac : a = c
    · simp only [List.cons_append, splitOnChar, if_pos hac]
      simp [List.append_eq, ih]
    · simp only [List.cons_append, splitOnChar, if_neg hac]
      cases h : splitOnChar c t with
      | nil => exact absurd h (splitOnChar_ne_nil c t)
      | cons p ps =>
        rw [show t ++ c :: y = t.append (c :: y) from rfl] at ih
        rw [ih, h]
        simp

theorem splitOnChar_of_not_mem (c : Char) (s : L) (h : c ∉ s) :
    splitOnChar c s = [s] := by
  induction s with
  | nil => simp [splitOnChar]
  | cons a t ih =>
    simp only [splitOnChar]
    rw [if_neg (by intro hac; exact h (by simp [hac]))]
    rw [ih (by intro ht; exact h (by simp [ht]))]

theorem intercalate_cons₂ (sep x y : L) (zs : List L) :
    List.intercalate sep (x :: y :: zs) = x ++ sep ++ List.intercalate sep (y :: zs) := by
  simp [List.intercalate]

theorem splitOnChar_intercalate (c : Char) (B : List L) (hB : B ≠ []) :
    splitOnChar c (List.intercalate [c] B) = B.flatMap (splitOnChar c) := by
  induction B with
  | nil => exact absurd rfl hB
  | cons b B' ih =>
    cases B' with
    | nil => simp [List.intercalate]
    | cons b' B'' =>
      rw [intercalate_cons₂]
      rw [show b ++ [c] ++ List.intercalate [c] (b' :: B'') =
            b ++ c :: List.intercalate [c] (b' :: B'') by simp]
      rw [splitOnChar_append_cons, ih (by simp)]
      simp

theorem removeGo_sublist (ls : List L) :
    ∀ pending em, (em = none → pending = []) →
      (removeGo ls pending em).Sublist (pending ++ ls) := by
  induction ls with
  | nil => intro pending em _; simp [removeGo]
  | cons line rest ih =>
    intro pending em hinv
    simp only [removeGo]
    by_cases htr : stripTrig line
    · rw [if_pos htr]
      have hrec := ih [] (some (deriveEnd line)) (by simp)
      simp only [List.nil_append] at hrec
      by_cases hem : em.isSome
      · rw [if_pos hem]
        exact List.Sublist.append (List.Sublist.refl pending) (hrec.cons₂ line)
      · rw [if_neg hem]
        have : pending = [] := hinv (Option.not_isSome_iff_eq_none.mp hem)
        subst this
        simpa using hrec.cons₂ line
    · rw [if_neg htr]
      by_cases hend : em = some line
      · rw [if_pos hend]
        have hrec := ih [] none (by simp)
        simp only [List.nil_append] at hrec
        exact hrec.trans ((List.sublist_cons_self line rest).trans
          (List.sublist_append_right pending (line :: rest)))
      · rw [if_neg hend]
        by_cases hem : em.isSome
        · rw [if_pos hem]
          have hrec := ih (pending ++ [line]) em (by
            intro h; rw [h] at hem; simp at hem)
          simpa using hrec
        · rw [if_neg hem]
          have hp : pending = [] := hinv (Option.not_isSome_iff_eq_none.mp hem)
          subst hp
          simpa using (ih [] em hinv).cons₂ line

/-- Lines that neither re-trigger nor match the pending end marker are
buffered. -/
theorem removeGo_absorb (mid : List L) :
    ∀ zs pending e, (∀ x ∈ mid, stripTrig x = false ∧ x ≠ e) →
      removeGo (mid ++ zs) pending (some e) = removeGo zs (pending ++ mid) (some e) := by
  induction mid with
  | nil => intro zs pending e _; simp
  | cons m mid' ih =>
    intro zs pending e h
    have hm := h m (by simp)
    simp only [List.cons_append, removeGo]
    rw [if_neg (by simp [hm.1])]
    rw [if_neg (by simp [Ne.symm hm.2])]
    rw [if_pos (by simp)]
    simp only [List.append_eq]
    rw [ih zs (pending ++ [m]) e (fun x hx => h x (by simp [hx]))]
    simp

/-- A pending region whose derived end marker appears (and is not itself a
start trigger) is consumed entirely: body, pending buffer and end marker. -/
theorem removeGo_consume (mid : List L) (zs : List L) (pending : List L) (e : L)
    (hmid : ∀ x ∈ mid, stripTrig x = false ∧ x ≠ e) (he : stripTrig e = false) :
    removeGo (mid ++ e :: zs) pending (some e) = removeGo zs [] none := by
  rw [removeGo_absorb mid (e :: zs) pending e hmid]
  simp only [removeGo]
  rw [if_neg (by simp [he])]
  simp

theorem removeGo_eq_run (ls : List L) : ∀ pending em,
    removeGo ls pending em =
      (removeRun ls pending em).1 ++ (removeRun ls pending em).2.1 := by
  induction ls with
  | nil => intro pending em; simp [removeGo, removeRun]
  | cons line rest ih =>
    intro pending em
    simp only [removeGo, removeRun]
    by_cases htr : stripTrig line
    · rw [if_pos htr, if_pos htr]
      rw [ih [] (some (deriveEnd line))]
      simp
    · rw [if_neg htr, if_neg htr]
      by_cases hend : em = some line
      · rw [if_pos hend, if_pos hend]; exact ih [] none
      · rw [if_neg hend, if_neg hend]
        by_cases hem : em.isSome
        · rw [if_pos hem, if_pos hem]; exact ih (pending ++ [line]) em
        · rw [if_neg hem, if_neg hem]
          rw [ih pending em]
          simp

theorem removeGo_append (xs : List L) : ∀ ys pending em,
    removeGo (xs ++ ys) pending em =
      (removeRun xs pending em).1 ++
        removeGo ys (removeRun xs pending em).2.1 (removeRun xs pending em).2.2 := by
  induction xs with
  | nil => intro ys pending em; simp [removeRun]
  | cons line rest ih =>
    intro ys pending em
    simp only [List.cons_append, removeGo, removeRun, List.append_eq]
    by_cases htr : stripTrig line
    · rw [if_pos htr, if_pos htr]
      rw [ih ys [] (some (deriveEnd line))]
      simp
    · rw [if_neg htr, if_neg htr]
      by_cases hend : em = some line
      · rw [if_pos hend, if_pos hend]; exact ih ys [] none
      · rw [if_neg hend, if_neg hend]
        by_cases hem : em.isSome
        · rw [if_pos hem, if_pos hem]; exact ih ys (pending ++ [line]) em
        · rw [if_neg hem, if_neg hem]
          rw [ih ys pending em]
          simp

theorem isPre_trans : ∀ p q s : L, isPre p q = true → isPre q s = true →
    isPre p s = true := by
  intro p
  induction p with
  | nil => intro q s _ _; simp [isPre]
  | cons a p' ih =>
    intro q s h1 h2
    cases q with
    | nil => simp [isPre] at h1
    | cons b q' =>
      cases s with
      | nil => simp [isPre] at h2
      | cons c s' =>
        simp only [isPre, Bool.and_eq_true, beq_iff_eq] at h1 h2 ⊢
        exact ⟨h1.1.trans h2.1, ih q' s' h1.2 h2.2⟩

theorem containsSub_mono (p q : L) (hpq : isPre p q = true) :
    ∀ s : L, containsSub q s = true → containsSub p s = true := by
  intro s
  induction s with
  | nil =>
    intro h
    simp [containsSub, List.isEmpty_iff] at h ⊢
    subst h
    cases p with
    | nil => rfl
    | cons a p' => simp [isPre] at hpq
  | cons a t ih =>
    intro h
    simp only [containsSub, Bool.or_eq_true] at h ⊢
    rcases h with h | h
    · exact Or.inl (isPre_trans p q (a :: t) hpq h)
    · exact Or.inr (ih h)

theorem stripTrig_mark (l : L) (h : stripTrig l = true) : markB l = true := by
  simp only [stripTrig, Bool.and_eq_true] at h
  simp only [markB, Bool.and_eq_true]
  refine ⟨?_, h.1⟩
  exact containsSub_mono (str ("ajimi::code")) (str ("ajimi::code change_id"))
    (by decide) l h.2

theorem normalizeLine_not_mark (R : CommitResolver) (l : L) (h : markB l = false) :
    normalizeLine R l = l := by
  simp only [markB, Bool.and_eq_true] at h
  simp only [normalizeLine, normalizeLineD]
  rw [if_neg (by simp [h])]

theorem map_eq_self_of_fix {f : L → L} :
    ∀ ls : List L, (∀ x ∈ ls, f x = x) → ls.map f = ls := by
  intro ls
  induction ls with
  | nil => intro _; rfl
  | cons a t ih =>
    intro h
    simp only [List.map_cons]
    rw [h a (by simp), ih (fun x hx => h x (by simp [hx]))]

theorem insertEffect_not_mark (R : CommitResolver) (l : L) (h : markB l = false) :
    insertEffect R l = .ok [l] := by
  simp [insertEffect, h]

theorem insert_cons_ok (R : CommitResolver) (l : L) (rest : List L) (out : List L)
    (h : insertCommitDiffWithChangeId R (l :: rest) = .ok out) :
    ∃ b out', insertEffect R l = .ok b ∧
      insertCommitDiffWithChangeId R rest = .ok out' ∧ out = b ++ out' := by
  cases hb : insertEffect R l with
  | ok b =>
    cases hrest : insertCommitDiffWithChangeId R rest with
    | ok out' =>
      refine ⟨b, out', rfl, rfl, ?_⟩
      simp only [insertCommitDiffWithChangeId, hb, hrest, RRes.bind_ok] at h
      cases h
      rfl
    | err =>
      simp only [insertCommitDiffWithChangeId, hb, hrest, RRes.bind_ok,
        RRes.bind_err] at h
      exact RRes.noConfusion h
    | panicked =>
      simp only [insertCommitDiffWithChangeId, hb, hrest, RRes.bind_ok,
        RRes.bind_panicked] at h
      exact RRes.noConfusion h
  | err =>
    simp only [insertCommitDiffWithChangeId, hb, RRes.bind_err] at h
    exact RRes.noConfusion h
  | panicked =>
    simp only [insertCommitDiffWithChangeId, hb, RRes.bind_panicked] at h
    exact RRes.noConfusion h

/-- Lines the re-insert pass treats as plain text survive it unchanged and
in order. -/
theorem filter_not_mark_sublist_insert (R : CommitResolver) :
    ∀ ls out : List L, insertCommitDiffWithChangeId R ls = .ok out →
      (ls.filter (fun l => !markB l)).Sublist out := by
  intro ls
  induction ls with
  | nil =>
    intro out h
    simp only [insertCommitDiffWithChangeId] at h
    cases h
    simp
  | cons l rest ih =>
    intro out h
    obtain ⟨b, out', hb, hrest, hout⟩ := insert_cons_ok R l rest out h
    subst hout
    by_cases hm : markB l
    · rw [List.filter_cons_of_neg (by simp [hm])]
      exact (ih out' hrest).trans (List.sublist_append_right b out')
    · have hbl : b = [l] := by
        have := insertEffect_not_mark R l (by simpa using hm)
        rw [hb] at this
        cases this
        rfl
      subst hbl
      rw [List.filter_cons_of_pos (by simp [hm])]
      simpa using (ih out' hrest).cons₂ l

theorem outsideGo_eq_filter : ∀ (ls pending : List L) (em : Option L),
    outsideGo ls (pending.filter (fun l => !markB l)) em =
      (removeGo ls pending em).filter (fun l => !markB l) := by
  intro ls
  induction ls with
  | nil => intro pending em; simp [outsideGo, removeGo]
  | cons line rest ih =>
    intro pending em
    simp only [outsideGo, removeGo]
    by_cases htr : stripTrig line
    · rw [if_pos htr, if_pos htr]
      have hml : markB line = true := stripTrig_mark line htr
      have h0 := ih [] (some (deriveEnd line))
      simp only [List.filter_nil] at h0
      rw [h0]
      by_cases hem : em.isSome
      · rw [if_pos hem, if_pos hem]
        simp [hml]
      · rw [if_neg hem, if_neg hem]
        simp [hml]
    · rw [if_neg htr, if_neg htr]
      by_cases hend : em = some line
      · rw [if_pos hend, if_pos hend]
        have h0 := ih [] none
        simpa using h0
      · rw [if_neg hend, if_neg hend]
        by_cases hem : em.isSome
        · rw [if_pos hem, if_pos hem]
          have h0 := ih (pending ++ [line]) em
          rw [List.filter_append] at h0
          have hfl : List.filter (fun l => !markB l) [line] =
              if markB line = true then [] else [line] := by
            by_cases hml : markB line <;> simp [hml]
          rw [hfl] at h0
          exact h0
        · rw [if_neg hem, if_neg hem]
          rw [ih pending em]
          by_cases hml : markB line
          · simp [hml]
          · simp [hml]

theorem outsideLines_eq_filter (ls : List L) :
    outsideLines ls = (removeGeneratedLines ls).filter (fun l => !markB l) := by
  have := outsideGo_eq_filter ls [] none
  simpa [outsideLines, removeGeneratedLines] using this

/-- C4: for every start-marker line whose identifier fails to resolve via
`patch_from_change_id`, the re-insert pass skips the `lines_updated.push`
of the marker itself (src/fix.rs lines 251-252 are guarded by the same
`if let Ok`), so the marker line is dropped, not kept. -/
theorem c4_counterexample :
    insertCommitDiffWithChangeId resolverNone
        [str ("<!-- ajimi::code change_id Y -->"), str ("prose")] =
      .ok [str ("prose")] ∧
    str ("<!-- ajimi::code change_id Y -->") ∉ [str ("prose")] := by
  constructor
  · decide
  · decide

/-- C4 (amended): in the re-insertion pass, a start-marker line whose
stable identifier fails to resolve via `fetch_patch` is dropped together
with its (already stripped) body: the pass behaves exactly as if the
marker line were absent, returns whatever the remaining lines produce
(success if they succeed), and all other regions are still processed. -/
theorem c4_failed_fetch_drops_marker (R : CommitResolver) (m cid : L)
    (rest : List L) (hm : markB m = true) (htok : insTrigTok m = some cid)
    (hpatch : R.patch_from_change_id cid = none) :
    insertCommitDiffWithChangeId R (m :: rest) =
      insertCommitDiffWithChangeId R rest := by
  have he : insertEffect R m = .ok [] := by
    simp [insertEffect, hm, htok, hpatch]
  simp only [insertCommitDiffWithChangeId, he, RRes.bind_ok]
  cases h : insertCommitDiffWithChangeId R rest <;> simp [RRes.bind]

theorem c4_witness :
    insertCommitDiffWithChangeId resolverNone
        [str ("<!-- ajimi::code change_id Y -->"), str ("prose")] =
      insertCommitDiffWithChangeId resolverNone [str ("prose")] :=
  c4_failed_fetch_drops_marker resolverNone (str ("<!-- ajimi::code change_id Y -->"))
    (str ("Y")) [str ("prose")] (by decide) (by decide) rfl

/-- C5: on the scenario exactly as the spec states it — resolver patch
`"abc123: Title\n\n@@ -1,1 +1,1 @@\n-old\n+new\n"` — the rewrite FAILS:
the diff body has no `diff --git` header, so `format_patch` hits its
"Invalid part" fatal error (src/fix.rs line 116) and `fix_file`
propagates it.  The claim says the rewrite succeeds. -/
theorem c5_counterexample : fixFile resolverC5bad c5doc = RRes.err := by decide

/-- C5 (amended): with the same scenario but the patch carrying its
`diff --git a/f.rs b/f.rs` header line, the rewrite succeeds and the
output contains the start marker, the title-metadata line, a fenced
rendering with `~~old~~` and `**new**`, and the freshly generated end
marker, while the literal `old body` does not appear. -/
theorem c5_amended :
    fixFile resolverC5 c5doc = .ok c5out ∧
    containsSub (str ("<!-- ajimi::code change_id X -->")) c5out = true ∧
    containsSub (str ("<!-- ajimi::meta::title \"Title\" -->")) c5out = true ∧
    containsSub (str ("```rust,noplayground\n(注:f.rs)\n~~old~~\n**new**\n```")) c5out = true ∧
    containsSub (str ("~~old~~")) c5out = true ∧
    containsSub (str ("**new**")) c5out = true ∧
    containsSub (str ("<!-- ajimi::end change_id X -->")) c5out = true ∧
    containsSub (str ("old body")) c5out = false := by
  refine ⟨by decide, by decide, by decide, by decide, by decide, by decide,
    by decide, by decide⟩

/-- C10: `format_patch` panics (rather than returning `Ok` or `Err`) on
segments that start with `diff --git` but break its shape assumptions:
a header with fewer than three space-separated tokens (`.nth(2).unwrap()`),
a third token without the `a/` prefix (`.strip_prefix("a/").unwrap()`),
and a content line before any `@@` hunk header
(`acc.last_mut().unwrap()`). -/
theorem c10_formatPatch_panics :
    formatPatch (str ("diff --git")) resolverNone none = RRes.panicked ∧
    formatPatch (str ("diff --git x b/f.rs")) resolverNone none = RRes.panicked ∧
    formatPatch (str ("diff --git a/f.rs b/f.rs\nxyz\n@@ -1,1 +1,1 @@\n+a"))
        resolverNone none = RRes.panicked := by
  refine ⟨by decide, by decide, by decide⟩

/-- C8: in the normalize pass, a marker-like line carrying a `commit`
token whose reference fails to resolve is kept unchanged and the
diagnostic flag is set (the `eprintln!` branch, src/fix.rs line 59), and
the pass — which cannot fail — keeps it in place; a line with no `commit`
token (in particular a start marker already in `change_id` form) is kept
unchanged with no diagnostic. -/
theorem c8_normalize_soft_fail (R : CommitResolver) (l c : L)
    (pre post : List L) :
    (markB l = true →
      tokenAfter (str ("commit")) (splitOnChar ' ' l) = some c →
      R.change_id_from_commit_id c = none →
      normalizeLineD R l = (l, true) ∧
        replaceCommitIdWithChangeId R (pre ++ l :: post) =
          replaceCommitIdWithChangeId R pre ++ l :: replaceCommitIdWithChangeId R post) ∧
    (tokenAfter (str ("commit")) (splitOnChar ' ' l) = none →
      normalizeLineD R l = (l, false)) := by
  constructor
  · intro hm htok hres
    have hline : normalizeLineD R l = (l, true) := by
      simp only [markB, Bool.and_eq_true] at hm
      simp only [normalizeLineD]
      rw [if_pos (by simp [hm.1, hm.2]), htok]
      simp [hres]
    refine ⟨hline, ?_⟩
    simp only [replaceCommitIdWithChangeId, List.map_append, List.map_cons]
    rw [show normalizeLine R l = l by simp [normalizeLine, hline]]
  · intro htok
    simp only [normalizeLineD]
    by_cases hcond :
        (containsSub (str ("ajimi::code")) l && isPre (str ("<!--")) l) = true
    · rw [if_pos hcond, htok]
    · rw [if_neg hcond]

theorem c8_witness :
    (normalizeLineD resolverNone (str ("<!-- ajimi::code commit deadbeef -->")) =
        (str ("<!-- ajimi::code commit deadbeef -->"), true) ∧
      replaceCommitIdWithChangeId resolverNone
          [str ("before"), str ("<!-- ajimi::code commit deadbeef -->"), str ("after")] =
        replaceCommitIdWithChangeId resolverNone [str ("before")] ++
          str ("<!-- ajimi::code commit deadbeef -->") ::
            replaceCommitIdWithChangeId resolverNone [str ("after")]) ∧
    normalizeLineD resolverNone (str ("<!-- ajimi::code change_id I0123 -->")) =
      (str ("<!-- ajimi::code change_id I0123 -->"), false) := by
  constructor
  · exact (c8_normalize_soft_fail resolverNone
      (str ("<!-- ajimi::code commit deadbeef -->")) (str ("deadbeef"))
      [str ("before")] [str ("after")]).1 (by decide) (by decide) rfl
  · exact (c8_normalize_soft_fail resolverNone
      (str ("<!-- ajimi::code change_id I0123 -->")) (str (""))
      [] []).2 (by decide)

/-- C2: every line lying strictly outside any marker-delimited generated
region of the (marker-normalized) document and not itself marker-like is
preserved byte-for-byte and in order by the full rewrite.  Regions are
the claim-side `outsideGo` scanner's: a start marker opens a region that
runs to the first occurrence of its mechanically derived end marker;
orphaned bodies (second start marker or end of document) count as
outside.  Region structure is read off the normalized document because
marker normalization runs first (and is the pass that canonicalizes the
start markers the strip pass matches on). -/
theorem c2_region_isolation (R : CommitResolver) (d out : List L)
    (h : fixLines R d = .ok out) :
    (outsideLines (replaceCommitIdWithChangeId R d)).Sublist out := by
  rw [outsideLines_eq_filter]
  exact filter_not_mark_sublist_insert R _ out h

theorem c2_witness :
    (outsideLines (replaceCommitIdWithChangeId resolverC5
        [str ("intro"), str ("<!-- ajimi::code change_id X -->"),
         str ("stale"), str ("<!-- ajimi::end change_id X -->"),
         str ("outro")])).Sublist
      [str ("intro"), str ("<!-- ajimi::code change_id X -->"),
       str ("<!-- ajimi::meta::title \"Title\" -->"),
       str ("\n```rust,noplayground\n(注:f.rs)\n~~old~~\n**new**\n```\n"),
       str ("<!-- ajimi::end change_id X -->"), str ("outro")] :=
  c2_region_isolation resolverC5
    [str ("intro"), str ("<!-- ajimi::code change_id X -->"),
     str ("stale"), str ("<!-- ajimi::end change_id X -->"), str ("outro")]
    _ (by decide)

theorem verifyLoop_no_viol (pos : L → Option Nat) :
    ∀ (ids : List L) (orders : List Nat) (idx next : Nat),
      ids.map pos = orders.map some → orders.Chain' (· < ·) →
      (∀ o ∈ orders.head?, next ≤ o) →
      verifyLoop pos ids idx next = [] := by
  intro ids
  induction ids with
  | nil => intro orders idx next _ _ _; rfl
  | cons id rest ih =>
    intro orders idx next hmap hchain hhead
    cases orders with
    | nil => simp at hmap
    | cons o os =>
      simp only [List.map_cons, List.cons.injEq] at hmap
      have hid : pos id = some o := hmap.1
      have hnext : next ≤ o := hhead o (by simp)
      simp only [verifyLoop, hid]
      rw [if_neg (by omega)]
      have hc := List.chain'_cons'.mp hchain
      apply ih os (idx + 1) (o + 1) hmap.2 hc.2
      intro o' ho'
      have := hc.1 o' ho'
      omega

theorem verifyLoop_one_back (pos : L → Option Nat) :
    ∀ (u : List L) (pu : List Nat) (x : L) (px : Nat) (v : List L)
      (pv : List Nat) (idx next : Nat),
      u.map pos = pu.map some → pos x = some px → v.map pos = pv.map some →
      (pu ++ pv).Chain' (· < ·) →
      (∀ o ∈ pu.head?, next ≤ o) →
      (∀ lo, pu.getLast? = some lo → px ≤ lo) →
      u ≠ [] →
      verifyLoop pos (u ++ x :: v) idx next = [(idx + u.length, Viol.orderBack)] := by
  intro u
  induction u with
  | nil => intro _ _ _ _ _ _ _ _ _ _ _ _ _ hne; exact absurd rfl hne
  | cons a u' ih =>
    intro pu x px v pv idx next hmu hx hmv hchain hhead hlast _
    cases pu with
    | nil => simp at hmu
    | cons pa pu' =>
      simp only [List.map_cons, List.cons.injEq] at hmu
      have ha : pos a = some pa := hmu.1
      simp only [List.cons_append, verifyLoop, ha]
      rw [if_neg (by have := hhead pa (by simp); omega)]
      cases u' with
      | nil =>
        have hpu' : pu' = [] := by
          cases pu' with
          | nil => rfl
          | cons z zs => simp at hmu
        subst hpu'
        have hpx : px ≤ pa := hlast pa (by simp)
        simp only [List.nil_append, verifyLoop, hx]
        rw [if_pos (by omega)]
        have hc := List.chain'_cons'.mp (by simpa using hchain)
        have hv : verifyLoop pos v (idx + 1 + 1) (pa + 1) = [] := by
          apply verifyLoop_no_viol pos v pv (idx + 1 + 1) (pa + 1) hmv hc.2
          intro o' ho'
          have := hc.1 o' ho'
          omega
        rw [hv]
        simp
      | cons b u'' =>
        have hpu' : pu' ≠ [] := by
          cases pu' with
          | nil => simp at hmu
          | cons z zs => simp
        have hstep := ih pu' x px v pv (idx + 1) (pa + 1) hmu.2 hx hmv
          (by
            have : (pa :: (pu' ++ pv)).Chain' (· < ·) := by simpa using hchain
            exact (List.chain'_cons'.mp this).2)
          (by
            have : (pa :: (pu' ++ pv)).Chain' (· < ·) := by simpa using hchain
            intro o' ho'
            have h1 := (List.chain'_cons'.mp this).1 o'
            have h2 : o' ∈ (pu' ++ pv).head? := by
              cases pu' with
              | nil => exact absurd rfl hpu'
              | cons z zs => simpa using ho'
            have := h1 h2
            omega)
          (by
            intro lo hlo
            apply hlast lo
            cases pu' with
            | nil => exact absurd rfl hpu'
            | cons z zs => simpa using hlo)
          (by simp)
        simp only [List.append_eq]
        rw [hstep]
        have : idx + 1 + (b :: u'').length = idx + (a :: b :: u'').length := by
          simp [List.length_cons]
          omega
        rw [this]

/-- C3 counterexample: over the one-entry history `[X]`, the book scan
`[X, X]` consists of valid identifiers whose chronological positions
`(0, 0)` are presented in non-decreasing order, yet the checker reports
one "order should not go back" violation: acceptance advances the
watermark to position + 1, so an equal position already violates. -/
theorem c3_counterexample :
    repoOrderMap [str ("X")] (str ("X")) = some 0 ∧
    verifyGeneratedCode [str ("X")] [str ("X"), str ("X")] =
      [(1, Viol.orderBack)] := by
  refine ⟨by decide, by decide⟩

/-- C3 (amended): (1) a scan of valid identifiers with strictly
increasing chronological positions yields no violations; (2) a scan that
is strictly increasing except for exactly one identifier whose position
is ≤ the last previously accepted position yields exactly one ordering
violation, anchored to that element; (3) a valid identifier with
position ≥ the watermark advances the watermark to
`max(watermark, position) + 1` and reports nothing, a valid identifier
below the watermark reports one ordering violation and leaves the
watermark unchanged, and an invalid identifier reports one not-found
violation and leaves the watermark unchanged (so it does not affect
subsequent ordering checks). -/
theorem c3_checker_ordering (pos : L → Option Nat) :
    (∀ (ids : List L) (orders : List Nat),
        ids.map pos = orders.map some → orders.Chain' (· < ·) →
        verifyLoop pos ids 0 0 = []) ∧
    (∀ (u : List L) (pu : List Nat) (x : L) (px : Nat) (v : List L)
        (pv : List Nat),
        u.map pos = pu.map some → pos x = some px → v.map pos = pv.map some →
        (pu ++ pv).Chain' (· < ·) →
        (∀ lo, pu.getLast? = some lo → px ≤ lo) → u ≠ [] →
        verifyLoop pos (u ++ x :: v) 0 0 = [(u.length, Viol.orderBack)]) ∧
    (∀ (x : L) (v : List L) (idx next px : Nat),
        (pos x = none →
          verifyLoop pos (x :: v) idx next =
            (idx, Viol.notFound) :: verifyLoop pos v (idx + 1) next) ∧
        (pos x = some px → next ≤ px →
          verifyLoop pos (x :: v) idx next =
            verifyLoop pos v (idx + 1) (Nat.max next px + 1)) ∧
        (pos x = some px → px < next →
          verifyLoop pos (x :: v) idx next =
            (idx, Viol.orderBack) :: verifyLoop pos v (idx + 1) next)) := by
  refine ⟨?_, ?_, ?_⟩
  · intro ids orders hmap hchain
    exact verifyLoop_no_viol pos ids orders 0 0 hmap hchain (fun o _ => Nat.zero_le o)
  · intro u pu x px v pv hmu hx hmv hchain hlast hne
    have := verifyLoop_one_back pos u pu x px v pv 0 0 hmu hx hmv hchain
      (fun o _ => Nat.zero_le o) hlast hne
    simpa using this
  · intro x v idx next px
    refine ⟨?_, ?_, ?_⟩
    · intro hx; simp [verifyLoop, hx]
    · intro hx hle
      simp only [verifyLoop, hx]
      rw [if_neg (by omega)]
      have hmax : Nat.max next px = px := Nat.max_eq_right hle
      rw [hmax]
    · intro hx hlt
      simp only [verifyLoop, hx]
      rw [if_pos hlt]

theorem c3_witness :
    verifyGeneratedCode [str ("C"), str ("B"), str ("A")]
        [str ("A"), str ("B"), str ("C")] = [] ∧
    verifyGeneratedCode [str ("C"), str ("B"), str ("A")]
        [str ("A"), str ("C"), str ("B")] = [(2, Viol.orderBack)] ∧
    verifyLoop (repoOrderMap [str ("B"), str ("A")]) (str ("Z") :: [str ("B")]) 0 0 =
      (0, Viol.notFound) :: verifyLoop (repoOrderMap [str ("B"), str ("A")]) [str ("B")] 1 0 := by
  refine ⟨?_, ?_, ?_⟩
  · exact (c3_checker_ordering (repoOrderMap [str ("C"), str ("B"), str ("A")])).1
      [str ("A"), str ("B"), str ("C")] [0, 1, 2] (by decide)
      (by simp [List.chain'_cons])
  · exact (c3_checker_ordering (repoOrderMap [str ("C"), str ("B"), str ("A")])).2.1
      [str ("A"), str ("C")] [0, 2] (str ("B")) 1 [] [] (by decide) (by decide)
      (by decide) (by simp [List.chain'_cons])
      (by intro lo hlo; simp at hlo; omega) (by decide)
  · exact ((c3_checker_ordering (repoOrderMap [str ("B"), str ("A")])).2.2
      (str ("Z")) [str ("B")] 0 0 0).1 (by decide)

theorem removeGo_cons_trigger (m : L) (zs pending : List L) (em : Option L)
    (h : stripTrig m = true) :
    removeGo (m :: zs) pending em =
      (if em.isSome then pending else []) ++
        m :: removeGo zs [] (some (deriveEnd m)) := by
  simp [removeGo, h]

/-- C6 counterexample: the strip pass does flush the orphaned middle line
back into the document, but the full rewrite then DROPS it (its failing
`fetch_patch` lookup makes the re-insert pass skip the line entirely), so
"and hence in the full rewrite" fails. -/
theorem c6_counterexample :
    stripTrig (str ("<!-- ajimi::code change_id A -->")) = true ∧
    stripTrig (str ("<!-- ajimi::code change_id C -->")) = true ∧
    stripTrig (str ("<!-- ajimi::code x change_id B -->")) = false ∧
    str ("<!-- ajimi::code x change_id B -->") ∈
      removeGeneratedLines (replaceCommitIdWithChangeId resolverC6 c6doc) ∧
    fixLines resolverC6 c6doc = .ok c6out ∧
    str ("<!-- ajimi::code x change_id B -->") ∉ c6out := by
  refine ⟨by decide, by decide, by decide, by decide, by decide, by decide⟩

/-- C6 (amended): in the strip pass, the lines between a start marker and
a following second start marker (no intervening derived end marker)
appear unchanged, in order, between the two markers in the output, and a
body still pending at end-of-document is restored unchanged; in the full
rewrite those orphan lines are preserved provided they are not themselves
marker-like lines (a marker-like orphan whose identifier fails to resolve
is dropped by the re-insert pass). -/
theorem c6_orphan_recovery :
    (∀ (pre mid post : List L) (m1 m2 : L),
        stripTrig m1 = true → stripTrig m2 = true →
        (∀ x ∈ mid, stripTrig x = false ∧ x ≠ deriveEnd m1) →
        removeGeneratedLines (pre ++ m1 :: (mid ++ m2 :: post)) =
          removeGeneratedLines (pre ++ [m1]) ++ mid ++
            removeGeneratedLines (m2 :: post)) ∧
    (∀ (pre tail : List L) (m : L),
        stripTrig m = true →
        (∀ x ∈ tail, stripTrig x = false ∧ x ≠ deriveEnd m) →
        removeGeneratedLines (pre ++ m :: tail) =
          removeGeneratedLines (pre ++ [m]) ++ tail) ∧
    (∀ (R : CommitResolver) (pre mid post : List L) (m1 m2 : L) (out : List L),
        stripTrig m1 = true → stripTrig m2 = true →
        (∀ x ∈ mid, stripTrig x = false ∧ x ≠ deriveEnd m1) →
        replaceCommitIdWithChangeId R (pre ++ m1 :: (mid ++ m2 :: post)) =
          pre ++ m1 :: (mid ++ m2 :: post) →
        fixLines R (pre ++ m1 :: (mid ++ m2 :: post)) = .ok out →
        (mid.filter (fun l => !markB l)).Sublist out) := by
  have part1 : ∀ (pre mid post : List L) (m1 m2 : L),
      stripTrig m1 = true → stripTrig m2 = true →
      (∀ x ∈ mid, stripTrig x = false ∧ x ≠ deriveEnd m1) →
      removeGeneratedLines (pre ++ m1 :: (mid ++ m2 :: post)) =
        removeGeneratedLines (pre ++ [m1]) ++ mid ++
          removeGeneratedLines (m2 :: post) := by
    intro pre mid post m1 m2 h1 h2 hmid
    simp only [removeGeneratedLines]
    rw [removeGo_append pre (m1 :: (mid ++ m2 :: post)) [] none]
    rw [removeGo_append pre [m1] [] none]
    rw [removeGo_cons_trigger m1 _ _ _ h1, removeGo_cons_trigger m1 _ _ _ h1]
    rw [removeGo_absorb mid (m2 :: post) [] (deriveEnd m1) hmid]
    rw [removeGo_cons_trigger m2 _ _ _ h2, removeGo_cons_trigger m2 _ _ _ h2]
    simp [removeGo]
  refine ⟨part1, ?_, ?_⟩
  · intro pre tail m h1 htail
    simp only [removeGeneratedLines]
    rw [removeGo_append pre (m :: tail) [] none]
    rw [removeGo_append pre [m] [] none]
    rw [removeGo_cons_trigger m _ _ _ h1, removeGo_cons_trigger m _ _ _ h1]
    rw [show tail = tail ++ [] by simp]
    rw [removeGo_absorb tail [] [] (deriveEnd m) (by simpa using htail)]
    simp [removeGo]
  · intro R pre mid post m1 m2 out h1 h2 hmid hnorm hfix
    have hstrip := part1 pre mid post m1 m2 h1 h2 hmid
    simp only [fixLines, hnorm, hstrip] at hfix
    have hsub : mid.Sublist
        (removeGeneratedLines (pre ++ [m1]) ++ mid ++
          removeGeneratedLines (m2 :: post)) :=
      (List.sublist_append_right (removeGeneratedLines (pre ++ [m1])) mid).trans
        (List.sublist_append_left _ (removeGeneratedLines (m2 :: post)))
    exact (hsub.filter _).trans (filter_not_mark_sublist_insert R _ out hfix)

theorem c6_witness :
    (removeGeneratedLines
        [str ("p"), str ("<!-- ajimi::code change_id A -->"),
         str ("body1"), str ("body2"),
         str ("<!-- ajimi::code change_id C -->"), str ("q")] =
      removeGeneratedLines [str ("p"), str ("<!-- ajimi::code change_id A -->")] ++
        [str ("body1"), str ("body2")] ++
        removeGeneratedLines
          [str ("<!-- ajimi::code change_id C -->"), str ("q")]) ∧
    (removeGeneratedLines
        [str ("p"), str ("<!-- ajimi::code change_id A -->"),
         str ("body1"), str ("body2")] =
      removeGeneratedLines [str ("p"), str ("<!-- ajimi::code change_id A -->")] ++
        [str ("body1"), str ("body2")]) ∧
    ([str ("body1"), str ("body2")].filter (fun l => !markB l)).Sublist c6w3out := by
  refine ⟨?_, ?_, ?_⟩
  · exact c6_orphan_recovery.1 [str ("p")] [str ("body1"), str ("body2")]
      [str ("q")] (str ("<!-- ajimi::code change_id A -->"))
      (str ("<!-- ajimi::code change_id C -->")) (by decide) (by decide) (by decide)
  · exact c6_orphan_recovery.2.1 [str ("p")] [str ("body1"), str ("body2")]
      (str ("<!-- ajimi::code change_id A -->")) (by decide) (by decide)
  · exact c6_orphan_recovery.2.2 resolverC6 [str ("p")]
      [str ("body1"), str ("body2")] [str ("q")]
      (str ("<!-- ajimi::code change_id A -->"))
      (str ("<!-- ajimi::code change_id C -->")) c6w3out
      (by decide) (by decide) (by decide) (by decide) (by decide)

theorem dropWhile_head_not {α : Type} (p : α → Bool) :
    ∀ (l : List α) (x : α) (rest : List α),
      l.dropWhile p = x :: rest → p x = false := by
  intro l
  induction l with
  | nil => intro x rest h; simp at h
  | cons a t ih =>
    intro x rest h
    by_cases hp : p a = true
    · rw [List.dropWhile_cons_of_pos hp] at h
      exact ih x rest h
    · rw [List.dropWhile_cons_of_neg hp] at h
      cases h
      simpa using hp

/-- In a pending region, `removeGo` flushes nothing until the first
special line (start trigger or pending end marker); if none exists the
buffered body is restored at the end of the document. -/
theorem removeGo_some_none (e : L) (xs pending : List L)
    (hdrop : xs.dropWhile (fun x => !(stripTrig x || x == e)) = []) :
    removeGo xs pending (some e) = pending ++ xs := by
  have hall := List.dropWhile_eq_nil_iff.mp hdrop
  have habs := removeGo_absorb xs [] pending e (by
    intro x hx
    have := hall x hx
    simp only [Bool.not_eq_eq_eq_not, Bool.not_true, Bool.or_eq_false_iff,
      beq_eq_false_iff_ne] at this
    exact this)
  simpa [removeGo] using habs

/-- In a pending region, if the first special line is another start
trigger, the buffered body is flushed before it; if it is the pending end
marker, body and marker are dropped. -/
theorem removeGo_some_cons (e : L) (xs pending : List L) (stop : L)
    (rest' : List L)
    (hdrop : xs.dropWhile (fun x => !(stripTrig x || x == e)) = stop :: rest') :
    (stripTrig stop = true →
      removeGo xs pending (some e) =
        pending ++ xs.takeWhile (fun x => !(stripTrig x || x == e)) ++
          removeGo (stop :: rest') [] none) ∧
    (stripTrig stop = false →
      removeGo xs pending (some e) = removeGo rest' [] none) := by
  have hsplit := List.takeWhile_append_dropWhile
    (fun x => !(stripTrig x || x == e)) xs
  have hxs : xs = xs.takeWhile (fun x => !(stripTrig x || x == e)) ++
      stop :: rest' := by rw [← hdrop, hsplit]
  have habs := removeGo_absorb (xs.takeWhile (fun x => !(stripTrig x || x == e)))
    (stop :: rest') pending e (by
      intro x hx
      have := List.mem_takeWhile_imp hx
      simp only [Bool.not_eq_eq_eq_not, Bool.not_true, Bool.or_eq_false_iff,
        beq_eq_false_iff_ne] at this
      exact this)
  constructor
  · intro hst
    conv_lhs => rw [hxs]
    rw [habs]
    rw [removeGo_cons_trigger stop rest' _ (some e) hst]
    rw [removeGo_cons_trigger stop rest' [] none hst]
    simp
  · intro hst
    have hse : stop = e := by
      have hp := dropWhile_head_not (fun x => !(stripTrig x || x == e)) xs stop
        rest' hdrop
      simp only [Bool.not_eq_false', Bool.or_eq_true, beq_iff_eq] at hp
      rcases hp with hp | hp
      · rw [hp] at hst; simp at hst
      · exact hp
    conv_lhs => rw [hxs]
    rw [habs]
    simp only [removeGo]
    rw [if_neg (by simp [hst])]
    rw [if_pos (by rw [hse])]

theorem removeGo_none_eq_stripSpec : ∀ (n : Nat) (ls : List L), ls.length ≤ n →
    removeGo ls [] none = stripSpecF n ls := by
  intro n
  induction n with
  | zero =>
    intro ls h
    have : ls = [] := by
      cases ls with
      | nil => rfl
      | cons a t => simp at h
    subst this
    rfl
  | succ n ih =>
    intro ls h
    cases ls with
    | nil => rfl
    | cons l rest =>
      simp only [List.length_cons] at h
      by_cases htr : stripTrig l = true
      · rw [removeGo_cons_trigger l rest [] none htr]
        simp only [stripSpecF, if_pos htr]
        cases hdrop : rest.dropWhile (fun x => !(stripTrig x || x == deriveEnd l)) with
        | nil =>
          rw [removeGo_some_none (deriveEnd l) rest [] hdrop]
          simp [hdrop]
        | cons stop rest' =>
          have hlen : (stop :: rest').length ≤ rest.length := by
            have := (List.dropWhile_sublist
              (fun x => !(stripTrig x || x == deriveEnd l))
              (l := rest)).length_le
            rw [hdrop] at this
            exact this
          simp only [List.length_cons] at hlen
          have hcons := removeGo_some_cons (deriveEnd l) rest [] stop rest' hdrop
          by_cases hst : stripTrig stop = true
          · rw [hcons.1 hst]
            rw [ih (stop :: rest') (by simp only [List.length_cons]; omega)]
            simp [hdrop, hst]
          · rw [hcons.2 (by simpa using hst)]
            rw [ih rest' (by omega)]
            simp [hdrop, hst]
      · simp only [removeGo, stripSpecF, if_neg htr]
        rw [if_neg (by simp), if_neg (by simp)]
        rw [ih rest (by omega)]

/-- C9: the strip pass never invents, duplicates or reorders lines — its
output is a subsequence of the input — and it equals the claim-side
scanner `stripSpec`, which removes exactly the lines between a start
marker and the first occurrence of its mechanically derived end marker,
the end marker included (orphaned bodies, with no end marker before the
next start marker or the end of the document, are kept). -/
theorem c9_strip_is_subsequence (ls : List L) :
    (removeGeneratedLines ls).Sublist ls ∧
      removeGeneratedLines ls = stripSpec ls := by
  constructor
  · have := removeGo_sublist ls [] none (fun _ => rfl)
    simpa [removeGeneratedLines] using this
  · exact removeGo_none_eq_stripSpec ls.length ls (Nat.le.refl)

theorem isPre_length_le : ∀ p s : L, isPre p s = true → p.length ≤ s.length := by
  intro p
  induction p with
  | nil => intro s _; simp
  | cons a p' ih =>
    intro s h
    cases s with
    | nil => simp [isPre] at h
    | cons b s' =>
      simp only [isPre, Bool.and_eq_true] at h
      have := ih s' h.2
      simp only [List.length_cons]
      omega

theorem isPre_false_of_long (p s : L) (h : s.length < p.length) :
    isPre p s = false := by
  cases hh : isPre p s with
  | false => rfl
  | true => exact absurd (isPre_length_le p s hh) (by omega)

theorem isPre_append_right : ∀ p a z : L, isPre p a = true →
    isPre p (a ++ z) = true := by
  intro p
  induction p with
  | nil => intro a z _; simp [isPre]
  | cons x p' ih =>
    intro a z h
    cases a with
    | nil => simp [isPre] at h
    | cons b a' =>
      simp only [isPre, Bool.and_eq_true] at h
      simp only [List.cons_append, isPre, Bool.and_eq_true]
      exact ⟨h.1, ih a' z h.2⟩

theorem splitInclusive_of_not_mem (c : Char) (s : L) (hne : s ≠ [])
    (h : c ∉ s) : splitInclusive c s = [s] := by
  induction s with
  | nil => exact absurd rfl hne
  | cons a t ih =>
    simp only [splitInclusive]
    rw [if_neg (by intro hac; exact h (by simp [hac]))]
    cases t with
    | nil => simp [splitInclusive]
    | cons b t' =>
      rw [ih (by simp) (by intro ht; exact h (by simp [ht]))]

theorem splitInclusive_append_cons (c : Char) (x y : L) (h : c ∉ x) :
    splitInclusive c (x ++ c :: y) = (x ++ [c]) :: splitInclusive c y := by
  induction x with
  | nil => simp [splitInclusive]
  | cons a t ih =>
    simp only [List.cons_append, splitInclusive]
    rw [if_neg (by intro hac; exact h (by simp [hac]))]
    rw [show t ++ c :: y = t.append (c :: y) from rfl] at ih
    rw [ih (by intro ht; exact h (by simp [ht]))]

theorem trim_isEmpty_imp (s : L) (h : (trim s).isEmpty = true) :
    ∀ x ∈ s, isWS x = true := by
  simp only [trim, trimEnd, List.isEmpty_iff] at h
  have h1 : (s.dropWhile isWS).reverse.dropWhile isWS = [] := by
    have := congrArg List.reverse h
    simpa using this
  have h2 := List.dropWhile_eq_nil_iff.mp h1
  intro x hx
  have hsplit := List.takeWhile_append_dropWhile isWS s
  rw [← hsplit] at hx
  rcases List.mem_append.mp hx with h3 | h3
  · exact List.mem_takeWhile_imp h3
  · exact h2 x (by simpa using h3)

/-- The non-brace `@@ ` branch of the rendering loop leaves the state
unchanged when no output has been produced yet. -/
theorem renderHunkLine_atat_plain (R : CommitResolver) (cid : Option L)
    (fn : L) (hl : List L) (st : FmtSt) (line : L)
    (ha : isPre (str ("@@ ")) line = true) (hnum : st.numDiff = 0)
    (hctx : isSuf (str ("\x7b")) (trimEnd ((stripPre [' ']
        (((splitOnce (str ("@@"))
          (((splitOnce (str ("@@")) line).getD ([], [])).2)).getD ([], [])).2)).getD []))
      = false) :
    renderHunkLine R cid fn hl st line = .ok st := by
  simp only [renderHunkLine, ha, if_true, hnum]
  simp [hctx]

/-- A non-empty content line with an unsupported tag character is a
panic: the `todo!` for one-byte tags, the `&line[1..]` slice for
multi-byte ones. -/
theorem renderHunkLine_badtag (R : CommitResolver) (cid : Option L)
    (fn : L) (hl : List L) (st : FmtSt) (c : Char)
    (hp : c ≠ '+') (hm : c ≠ '-') (hs : c ≠ ' ') :
    renderHunkLine R cid fn hl st (c :: str ("x")) = .panicked := by
  have hat : isPre (str ("@@ ")) (c :: str ("x")) = false :=
    isPre_false_of_long _ _ (by simp only [List.length_cons]; decide)
  simp only [renderHunkLine, hat, Bool.false_eq_true, if_false]
  by_cases hd : 128 ≤ c.toNat
  · rw [if_pos hd]
  rw [if_neg hd]
  have hcore : trimEndNl (str ("x")) = str ("x") := by decide
  simp only [hcore]
  simp only [show (str ("x")).isEmpty = false from by decide,
    Bool.false_eq_true, if_false]
  simp only [show isPre (str ("fn ")) (str ("x")) = false from by decide,
    Bool.false_eq_true, if_false]
  rw [if_neg hp, if_neg hm, if_neg hs]

/-- C7: in `format_patch`, hunk content lines are rendered by their
leading character — `+` wrapped in `**` on both sides, `-` wrapped in
`~~`, space rendered plain, an empty content line (after the tag) as a
blank line regardless of its tag — and any other leading character on a
(non-empty) content line is a fatal outcome (the `todo!` panic aborts the
formatter), never a silent skip. -/
theorem c7_diff_line_rendering :
    (formatPatch
        (str ("diff --git a/f.rs b/f.rs\n@@ -1,2 +1,2 @@\n ctx\n+add\n-del\n+\n-\n"))
        resolverNone none =
      .ok (str ("\n```rust,noplayground\n(注:f.rs)\nctx\n**add**\n~~del~~\n\n\n```\n"))) ∧
    (∀ (R : CommitResolver) (c : Char), c ≠ '\n' → c ≠ '+' → c ≠ '-' → c ≠ ' ' →
      formatPatch (c7seg c) R none = RRes.panicked) := by
  constructor
  · decide
  · intro R c hn hp hm hs
    have hxmem : ('\n' : Char) ∉ c :: str ("x") := by
      intro hmem
      rcases List.mem_cons.mp hmem with h | h
      · exact hn h.symm
      · revert h; decide
    have hsplit : splitOnChar '\n' (c7seg c) = [c7A, c7B, c :: str ("x")] := by
      show splitOnChar '\n' (c7A ++ '\n' :: (c7B ++ '\n' :: (c :: str ("x")))) = _
      rw [splitOnChar_append_cons, splitOnChar_append_cons,
        splitOnChar_of_not_mem _ c7A (by decide),
        splitOnChar_of_not_mem _ c7B (by decide),
        splitOnChar_of_not_mem _ (c :: str ("x")) hxmem]
      rfl
    have hpre2 : isPre (str ("diff --git")) (c :: str ("x")) = false :=
      isPre_false_of_long _ _ (by simp only [List.length_cons]; decide)
    have hchunk : chunkBy (fun _ b => !isPre (str ("diff --git")) b)
        [c7A, c7B, c :: str ("x")] = [[c7A, c7B, c :: str ("x")]] := by
      simp [chunkBy, chunkByGo, hpre2, (by decide :
        isPre (str ("diff --git")) c7B = false)]
    have hjoin : List.intercalate (str ("\n")) [c7A, c7B, c :: str ("x")] =
        c7seg c := by
      rw [intercalate_cons₂, intercalate_cons₂,
        show str ("\n") = ['\n'] from by decide]
      simp [List.intercalate, c7seg]
    have htrim : (trim (c7seg c)).isEmpty = false := by
      cases hh : (trim (c7seg c)).isEmpty with
      | false => rfl
      | true =>
        have := trim_isEmpty_imp _ hh 'd' (by
          show 'd' ∈ c7A ++ _
          exact List.mem_append_left _ (by decide))
        exact absurd this (by decide)
    have hpre0 : isPre (str ("diff --git")) (c7seg c) = true :=
      isPre_append_right _ _ _ (by decide)
    have hlines : splitInclusive '\n' (c7seg c) =
        [c7A ++ ['\n'], c7B ++ ['\n'], c :: str ("x")] := by
      show splitInclusive '\n' (c7A ++ '\n' :: (c7B ++ '\n' :: (c :: str ("x")))) = _
      rw [splitInclusive_append_cons _ _ _ (by decide)]
      rw [splitInclusive_append_cons _ _ _ (by decide)]
      rw [splitInclusive_of_not_mem _ (c :: str ("x")) (by simp) hxmem]
    have hmeta1 : isPre (str ("diff --git")) (c7A ++ ['\n']) = true :=
      isPre_append_right _ _ _ (by decide)
    have hmetaB : (isPre (str ("diff --git")) (c7B ++ ['\n']) ||
        isPre (str ("new file")) (c7B ++ ['\n']) ||
        isPre (str ("---")) (c7B ++ ['\n']) ||
        isPre (str ("+++")) (c7B ++ ['\n']) ||
        isPre (str ("index ")) (c7B ++ ['\n'])) = false := by decide
    have hatB : isPre (str ("@@")) (c7B ++ ['\n']) = true := by decide
    have hmeta3 : (isPre (str ("diff --git")) (c :: str ("x")) ||
        isPre (str ("new file")) (c :: str ("x")) ||
        isPre (str ("---")) (c :: str ("x")) ||
        isPre (str ("+++")) (c :: str ("x")) ||
        isPre (str ("index ")) (c :: str ("x"))) = false := by
      rw [hpre2]
      rw [isPre_false_of_long (str ("new file")) _ (by simp only [List.length_cons]; decide)]
      rw [isPre_false_of_long (str ("---")) _ (by simp only [List.length_cons]; decide)]
      rw [isPre_false_of_long (str ("+++")) _ (by simp only [List.length_cons]; decide)]
      rw [isPre_false_of_long (str ("index ")) _ (by simp only [List.length_cons]; decide)]
      rfl
    have hat3 : isPre (str ("@@")) (c :: str ("x")) = false := by
      have h1 : str ("@@") = ['@', '@'] := by decide
      have h2 : str ("x") = ['x'] := by decide
      rw [h1, h2]
      simp only [isPre]
      rw [show (('@' : Char) == 'x') = false from by decide]
      simp
    have hfold : hunksFold [c7A ++ ['\n'], c7B ++ ['\n'], c :: str ("x")] [] =
        .ok [[c7B ++ ['\n'], c :: str ("x")]] := by
      simp only [hunksFold, hmeta1, Bool.true_or, if_true]
      simp only [hunksFold, hmetaB, Bool.false_eq_true, if_false, hatB, if_true]
      simp only [List.nil_append, pushLast]
      simp only [hunksFold, hmeta3, Bool.false_eq_true, if_false, hat3]
      simp [pushLast]
    have hl2 : ∀ st : FmtSt, st.numDiff = 0 →
        renderHunkLine R none (str ("f.rs")) [c7B ++ ['\n'], c :: str ("x")] st
          (c7B ++ ['\n']) = .ok st := by
      intro st hnum
      exact renderHunkLine_atat_plain R none (str ("f.rs")) _ st _ (by decide)
        hnum (by decide)
    have hl3 : ∀ st : FmtSt,
        renderHunkLine R none (str ("f.rs")) [c7B ++ ['\n'], c :: str ("x")] st
          (c :: str ("x")) = .panicked :=
      fun st => renderHunkLine_badtag R none (str ("f.rs")) _ st c hp hm hs
    show formatPatch (c7seg c) R none = RRes.panicked
    simp only [formatPatch, hsplit, hchunk, List.map_cons, List.map_nil, hjoin]
    simp only [formatPatchGo, formatPatchPart, htrim, Bool.false_eq_true, if_false,
      hpre0, Bool.not_true, hlines]
    simp only [show (splitOnChar ' ' (c7A ++ ['\n']))[2]? = some (str ("a/f.rs"))
      from by decide]
    simp only [show stripPre (str ("a/")) (str ("a/f.rs")) = some (str ("f.rs"))
      from by decide]
    simp only [show langOf (str ("f.rs")) = some (str ("rust,noplayground"))
      from by decide]
    simp only [hfold, RRes.bind_ok]
    simp only [renderHunks, renderLines]
    rw [hl2 _ rfl]
    simp only [RRes.bind_ok]
    rw [hl3]
    rfl

theorem c7_witness : formatPatch (c7seg 'q') resolverNone none = RRes.panicked :=
  c7_diff_line_rendering.2 resolverNone 'q' (by decide) (by decide) (by decide)
    (by decide)

theorem contains_false_not_mem (x : Char) : ∀ l : L, l.contains x = false →
    x ∉ l := by
  intro l
  induction l with
  | nil => intro _ h; simp at h
  | cons a t ih =>
    intro h hmem
    simp only [List.contains_cons, Bool.or_eq_false_iff, beq_eq_false_iff_ne] at h
    rcases List.mem_cons.mp hmem with h1 | h1
    · exact h.1 (h1 ▸ rfl)
    · exact absurd h1 (by
        intro hc
        have := ih (by
          cases hh : t.contains x with
          | false => rfl
          | true => rw [hh] at h; exact absurd h.2 (by simp)) hc
        exact this)

theorem splitNL_of_noNL (a : L) (h : noNLb a = true) :
    splitOnChar '\n' a = [a] := by
  apply splitOnChar_of_not_mem
  apply contains_false_not_mem
  simpa [noNLb] using h

theorem flatMap_eq_expandNL : ∀ B : List L,
    B.flatMap (splitOnChar '\n') = expandNL B := by
  intro B
  induction B with
  | nil => rfl
  | cons b bs ih => simp [expandNL, ih]

theorem expandNL_append : ∀ x y : List L,
    expandNL (x ++ y) = expandNL x ++ expandNL y := by
  intro x y
  induction x with
  | nil => rfl
  | cons b bs ih => simp [expandNL, ih]

/-- What a successful `insertEffect` can look like. -/
theorem insertEffect_cases (R : CommitResolver) (a : L) (b : List L)
    (hb : insertEffect R a = .ok b) :
    (insTrigB a = false ∧ b = [a]) ∨
    (∃ cid, insTrigTok a = some cid ∧ markB a = true ∧
      ((R.patch_from_change_id cid = none ∧ b = []) ∨
       (∃ p f rest ht fmt,
         R.patch_from_change_id cid = some p ∧
         splitOnChar '\n' (trim p) = f :: rest ∧
         splitOnce (str (": ")) f = some ht ∧
         formatPatch (List.intercalate (str ("\n")) rest) R (some ht.1) =
           .ok fmt ∧
         b = [a, metaTitleLine ht.2, fmt, endMarkerFor cid]))) := by
  by_cases hm : markB a = true
  · simp only [insertEffect, hm, if_true] at hb
    cases htok : insTrigTok a with
    | none =>
      simp only [htok] at hb
      cases hb
      exact Or.inl ⟨by simp [insTrigB, htok], rfl⟩
    | some cid =>
      simp only [htok] at hb
      cases hp : R.patch_from_change_id cid with
      | none =>
        simp only [hp] at hb
        cases hb
        exact Or.inr ⟨cid, rfl, hm, Or.inl ⟨hp, rfl⟩⟩
      | some p =>
        simp only [hp] at hb
        cases hpl : splitOnChar '\n' (trim p) with
        | nil => simp only [hpl] at hb; exact RRes.noConfusion hb
        | cons f rest =>
          simp only [hpl] at hb
          cases hsp : splitOnce (str (": ")) f with
          | none => simp only [hsp] at hb; exact RRes.noConfusion hb
          | some ht =>
            simp only [hsp] at hb
            cases hf : formatPatch (List.intercalate (str ("\n")) rest) R
                (some ht.1) with
            | ok fmt =>
              rw [hf] at hb
              simp only [RRes.bind_ok] at hb
              cases hb
              exact Or.inr ⟨cid, rfl, hm,
                Or.inr ⟨p, f, rest, ht, fmt, hp, hpl, hsp, hf, rfl⟩⟩
            | err => rw [hf] at hb; exact RRes.noConfusion hb
            | panicked => rw [hf] at hb; exact RRes.noConfusion hb
  · simp only [insertEffect, hm, if_false] at hb
    cases hb
    refine Or.inl ⟨?_, rfl⟩
    simp only [markB] at hm
    simp [insTrigB, markB]
    intro h1 h2
    exact absurd (by rw [h1, h2]; rfl) hm

theorem lineOK_noNL (R : CommitResolver) (a : L) (h : lineOK R a = true) :
    noNLb a = true := by
  simp only [lineOK, Bool.and_eq_true] at h
  exact h.1.1.1

theorem lineOK_norm (R : CommitResolver) (a : L) (h : lineOK R a = true) :
    normalizeLine R a = a := by
  simp only [lineOK, Bool.and_eq_true, decide_eq_true_eq] at h
  exact h.1.1.2

theorem lineOK_trigIff (R : CommitResolver) (a : L) (h : lineOK R a = true) :
    stripTrig a = insTrigB a := by
  simp only [lineOK, Bool.and_eq_true, beq_iff_eq] at h
  exact h.1.2

theorem lineOK_marker (R : CommitResolver) (a : L) (cid : L)
    (h : lineOK R a = true) (hm : markB a = true)
    (htok : insTrigTok a = some cid) :
    deriveEnd a = endMarkerFor cid ∧ noNLb (endMarkerFor cid) = true ∧
      markB (endMarkerFor cid) = false ∧
      stripTrig (endMarkerFor cid) = false := by
  simp only [lineOK, Bool.and_eq_true] at h
  have h2 := h.2
  rw [if_pos hm] at h2
  simp only [htok, Bool.and_eq_true, decide_eq_true_eq,
    Bool.not_eq_true'] at h2
  obtain ⟨⟨⟨⟨hd, hn⟩, hmk⟩, hst⟩, -⟩ := h2
  exact ⟨hd, hn, hmk, hst⟩

theorem lineOK_patch (R : CommitResolver) (a : L) (cid p f : L)
    (rest : List L) (ht : L × L)
    (h : lineOK R a = true) (hm : markB a = true)
    (htok : insTrigTok a = some cid)
    (hp : R.patch_from_change_id cid = some p)
    (hpl : splitOnChar '\n' (trim p) = f :: rest)
    (hsp : splitOnce (str (": ")) f = some ht) :
    noNLb (metaTitleLine ht.2) = true ∧ markB (metaTitleLine ht.2) = false ∧
      stripTrig (metaTitleLine ht.2) = false ∧
      metaTitleLine ht.2 ≠ deriveEnd a ∧
      (∀ fmt, formatPatch (List.intercalate (str ("\n")) rest) R (some ht.1) =
          .ok fmt →
        ∀ x ∈ splitOnChar '\n' fmt,
          markB x = false ∧ stripTrig x = false ∧ x ≠ deriveEnd a) := by
  simp only [lineOK, Bool.and_eq_true] at h
  have h2 := h.2
  rw [if_pos hm] at h2
  simp only [htok, hp, hpl, hsp, Bool.and_eq_true, decide_eq_true_eq,
    Bool.not_eq_true'] at h2
  obtain ⟨-, ⟨⟨⟨⟨hn1, hm1⟩, hs1⟩, hne1⟩, hfm⟩⟩ := h2
  refine ⟨hn1, hm1, hs1, hne1, ?_⟩
  intro fmt hf x hx
  simp only [hf] at hfm
  have h5 := List.all_eq_true.mp hfm x hx
  simp only [Bool.and_eq_true, decide_eq_true_eq, Bool.not_eq_true'] at h5
  exact ⟨h5.1.1, h5.1.2, h5.2⟩

theorem keepB_of_not_insTrig (R : CommitResolver) (a : L)
    (h : insTrigB a = false) : keepB R a = true := by
  simp only [insTrigB, Bool.and_eq_false_iff] at h
  simp only [keepB, Bool.not_eq_true']
  rcases h with h | h
  · simp [h]
  · cases htok : insTrigTok a with
    | none => simp
    | some cid => rw [htok] at h; simp at h

/-- The strip pass of the second run removes exactly what the re-insert
pass of the first run added, recovering the stripped document (minus the
markers the re-insert pass dropped). -/
theorem strip_recovers (R : CommitResolver) :
    ∀ A B : List L, (∀ a ∈ A, lineOK R a = true) →
      insertCommitDiffWithChangeId R A = .ok B →
      removeGo (expandNL B) [] none = A.filter (keepB R) := by
  intro A
  induction A with
  | nil =>
    intro B _ h
    simp only [insertCommitDiffWithChangeId] at h
    cases h
    rfl
  | cons a rest ih =>
    intro B hok h
    obtain ⟨b, B', hb, hrest, hBeq⟩ := insert_cons_ok R a rest B h
    subst hBeq
    have hOKa := hok a (by simp)
    have hIH := ih B' (fun x hx => hok x (by simp [hx])) hrest
    rw [expandNL_append]
    rcases insertEffect_cases R a b hb with ⟨htrig, hbeq⟩ |
      ⟨cid, htok, hmark, hcase⟩
    · subst hbeq
      have hstr : stripTrig a = false := by
        rw [lineOK_trigIff R a hOKa, htrig]
      have hexp : expandNL [a] = [a] := by
        simp [expandNL, splitNL_of_noNL a (lineOK_noNL R a hOKa)]
      rw [hexp]
      rw [List.filter_cons_of_pos (keepB_of_not_insTrig R a htrig)]
      show removeGo (a :: expandNL B') [] none = _
      simp only [removeGo, hstr, Bool.false_eq_true, if_false]
      rw [if_neg (by simp), if_neg (by simp)]
      rw [hIH]
    · rcases hcase with ⟨hp, hbeq⟩ | ⟨p, f, rest2, ht, fmt, hp, hpl, hsp, hf, hbeq⟩
      · subst hbeq
        have hkeep : keepB R a = false := by
          simp [keepB, hmark, htok, hp]
        rw [List.filter_cons_of_neg (by simp [hkeep])]
        simpa [expandNL] using hIH
      · subst hbeq
        obtain ⟨hd, hnEnd, hmEnd, hsEnd⟩ := lineOK_marker R a cid hOKa hmark htok
        obtain ⟨hnM, hmM, hsM, hneM, hFall⟩ :=
          lineOK_patch R a cid p f rest2 ht hOKa hmark htok hp hpl hsp
        have hstr : stripTrig a = true := by
          rw [lineOK_trigIff R a hOKa]
          simp [insTrigB, hmark, htok]
        have hexp : expandNL [a, metaTitleLine ht.2, fmt, endMarkerFor cid] ++
            expandNL B' =
            a :: ((metaTitleLine ht.2 :: splitOnChar '\n' fmt) ++
              endMarkerFor cid :: expandNL B') := by
          simp [expandNL, splitNL_of_noNL a (lineOK_noNL R a hOKa),
            splitNL_of_noNL _ hnM, splitNL_of_noNL _ hnEnd]
        rw [hexp]
        rw [removeGo_cons_trigger a _ [] none hstr]
        rw [hd]
        rw [removeGo_consume (metaTitleLine ht.2 :: splitOnChar '\n' fmt)
          (expandNL B') [] (endMarkerFor cid)
          (by
            intro x hx
            rcases List.mem_cons.mp hx with h1 | h1
            · subst h1; exact ⟨hsM, hd ▸ hneM⟩
            · obtain ⟨-, hs2, hne2⟩ := hFall fmt hf x h1
              exact ⟨hs2, hd ▸ hne2⟩)
          hsEnd]
        rw [hIH]
        rw [List.filter_cons_of_pos (by simp [keepB, hmark, htok, hp])]
        simp

/-- Every line the first run leaves in the written file is a fixpoint of
the normalize pass. -/
theorem norm_fixes_expand (R : CommitResolver) :
    ∀ A B : List L, (∀ a ∈ A, lineOK R a = true) →
      insertCommitDiffWithChangeId R A = .ok B →
      ∀ x ∈ expandNL B, normalizeLine R x = x := by
  intro A
  induction A with
  | nil =>
    intro B _ h x hx
    simp only [insertCommitDiffWithChangeId] at h
    cases h
    simp [expandNL] at hx
  | cons a rest ih =>
    intro B hok h x hx
    obtain ⟨b, B', hb, hrest, hBeq⟩ := insert_cons_ok R a rest B h
    subst hBeq
    rw [expandNL_append] at hx
    have hOKa := hok a (by simp)
    have hIH := ih B' (fun y hy => hok y (by simp [hy])) hrest
    rcases List.mem_append.mp hx with hx | hx
    · rcases insertEffect_cases R a b hb with ⟨htrig, hbeq⟩ |
        ⟨cid, htok, hmark, hcase⟩
      · subst hbeq
        rw [show expandNL [a] = [a] from by
          simp [expandNL, splitNL_of_noNL a (lineOK_noNL R a hOKa)]] at hx
        simp at hx
        rw [hx]
        exact lineOK_norm R a hOKa
      · rcases hcase with ⟨hp, hbeq⟩ |
          ⟨p, f, rest2, ht, fmt, hp, hpl, hsp, hf, hbeq⟩
        · subst hbeq
          simp [expandNL] at hx
        · subst hbeq
          obtain ⟨hd, hnEnd, hmEnd, hsEnd⟩ :=
            lineOK_marker R a cid hOKa hmark htok
          obtain ⟨hnM, hmM, hsM, hneM, hFall⟩ :=
            lineOK_patch R a cid p f rest2 ht hOKa hmark htok hp hpl hsp
          rw [show expandNL [a, metaTitleLine ht.2, fmt, endMarkerFor cid] =
              [a] ++ [metaTitleLine ht.2] ++ splitOnChar '\n' fmt ++
                [endMarkerFor cid] from by
            simp [expandNL, splitNL_of_noNL a (lineOK_noNL R a hOKa),
              splitNL_of_noNL _ hnM, splitNL_of_noNL _ hnEnd]] at hx
          simp only [List.append_assoc, List.mem_append,
            List.mem_singleton] at hx
          rcases hx with hx | hx | hx | hx
          · rw [hx]
            exact lineOK_norm R a hOKa
          · rw [hx]
            exact normalizeLine_not_mark R _ hmM
          · obtain ⟨hm2, -, -⟩ := hFall fmt hf x hx
            exact normalizeLine_not_mark R x hm2
          · rw [hx]
            exact normalizeLine_not_mark R _ hmEnd
    · exact hIH x hx

theorem keepB_false_effect (R : CommitResolver) (a : L)
    (h : keepB R a = false) : insertEffect R a = .ok [] := by
  simp only [keepB, Bool.not_eq_false'] at h
  simp only [Bool.and_eq_true] at h
  have hm := h.1
  have h2 := h.2
  cases htok : insTrigTok a with
  | none => simp only [htok] at h2; exact absurd h2 (by simp)
  | some cid =>
    simp only [htok] at h2
    have hp : R.patch_from_change_id cid = none :=
      Option.isNone_iff_eq_none.mp h2
    simp [insertEffect, hm, htok, hp]

/-- Markers the re-insert pass drops never contribute, so filtering them
out does not change the pass's result. -/
theorem insert_filter_keep (R : CommitResolver) :
    ∀ A : List L, insertCommitDiffWithChangeId R (A.filter (keepB R)) =
      insertCommitDiffWithChangeId R A := by
  intro A
  induction A with
  | nil => rfl
  | cons a rest ih =>
    by_cases hk : keepB R a = true
    · rw [List.filter_cons_of_pos hk]
      simp only [insertCommitDiffWithChangeId, ih]
    · rw [List.filter_cons_of_neg (by simp [Bool.not_eq_true] at hk ⊢; exact hk)]
      rw [ih]
      have he := keepB_false_effect R a (by
        cases hh : keepB R a with
        | false => rfl
        | true => exact absurd hh hk)
      simp only [insertCommitDiffWithChangeId, he, RRes.bind_ok]
      cases hr : insertCommitDiffWithChangeId R rest <;> simp [RRes.bind]

/-- C1 counterexample: the rewrite succeeds on `c1doc`, but rewriting its
own output inserts the generated block a second time (the strip pass does
not recognize the non-canonical marker, so nothing is stripped before
re-insertion): the rewrite is not idempotent. -/
theorem c1_counterexample :
    fixFile resolverC5 c1doc = .ok c1out ∧
    fixFile resolverC5 c1out ≠ .ok c1out := by
  refine ⟨by decide, by decide⟩

/-- C1 (amended): the full rewrite is idempotent for a fixed resolver on
every document whose stripped, normalized line list satisfies `lineOK`:
each surviving line is newline-free and fixed by the normalize pass, the
strip and re-insert passes agree on which lines are start markers, each
marker's mechanically derived end marker is the canonical generated end
marker (itself inert), and no generated title/patch line is marker-like
or equal to the end marker.  Under these side conditions,
`rewrite(rewrite(d)) = rewrite(d)`. -/
theorem c1_rewrite_idempotent (R : CommitResolver) (s o : L)
    (h : fixFile R s = .ok o)
    (hok : ∀ a ∈ removeGeneratedLines
        (replaceCommitIdWithChangeId R (splitOnChar '\n' s)),
      lineOK R a = true) :
    fixFile R o = .ok o := by
  simp only [fixFile, fixLines] at h
  cases hB : insertCommitDiffWithChangeId R
      (removeGeneratedLines (replaceCommitIdWithChangeId R (splitOnChar '\n' s))) with
  | err => rw [hB] at h; exact RRes.noConfusion h
  | panicked => rw [hB] at h; exact RRes.noConfusion h
  | ok B =>
    rw [hB] at h
    simp only [RRes.bind_ok] at h
    cases h
    cases B with
    | nil =>
      have h1 : normalizeLine R [] = [] := normalizeLine_not_mark R [] (by decide)
      show fixFile R (List.intercalate (str ("\n")) []) = _
      simp only [List.intercalate, List.intersperse]
      simp only [fixFile, fixLines, replaceCommitIdWithChangeId]
      rw [show splitOnChar '\n' (List.flatten []) = [[]] from rfl]
      simp only [List.map_cons, List.map_nil, h1]
      rw [show removeGeneratedLines [[]] = [[]] from by decide]
      rw [show insertCommitDiffWithChangeId R [[]] =
          (insertEffect R []).bind fun b =>
            (insertCommitDiffWithChangeId R []).bind fun out => .ok (b ++ out)
        from rfl]
      rw [insertEffect_not_mark R [] (by decide)]
      simp [insertCommitDiffWithChangeId, RRes.bind, List.intercalate,
        List.intersperse]
    | cons Bh Bt =>
      have hs : splitOnChar '\n' (List.intercalate (str ("\n")) (Bh :: Bt)) =
          expandNL (Bh :: Bt) := by
        rw [show str ("\n") = ['\n'] from by decide]
        rw [splitOnChar_intercalate '\n' _ (by simp)]
        exact flatMap_eq_expandNL _
      show fixFile R (List.intercalate (str ("\n")) (Bh :: Bt)) = _
      simp only [fixFile, fixLines, hs, replaceCommitIdWithChangeId]
      rw [map_eq_self_of_fix _ (norm_fixes_expand R _ (Bh :: Bt) hok hB)]
      rw [show removeGeneratedLines (expandNL (Bh :: Bt)) =
          (removeGeneratedLines
            (replaceCommitIdWithChangeId R (splitOnChar '\n' s))).filter (keepB R)
        from strip_recovers R _ (Bh :: Bt) hok hB]
      rw [insert_filter_keep R _, hB]
      rfl

theorem c1_witness : fixFile resolverC5 c5out = .ok c5out :=
  c1_rewrite_idempotent resolverC5 c5doc c5out (by decide) (by decide)
